import Mathlib

/-!
Verification of the semantic graph crawler and multiple-choice question
generator of the Multilingual-Semantic-Benchmark-Suite repository.

The Python sources are shallowly embedded:
* `src/DataGeneration/1_word_assembler.py` — breadth-first crawl of a remote
  lexical graph.  The remote service is modelled as a function
  `Graph : String → Option Synset`; a `none` result models a failed or
  missing fetch (`get_cached_synset` returning `None` after its
  `try/except`).  A relation-edge list that is `none` models the
  corresponding `outgoing_edges` call raising (caught by the surrounding
  `try/except`).
* `src/DataGeneration/fetch_relatives_helper.py` — the `deduplicate` helper.
* `src/DataGeneration/4_generate_questions.py` — the question generator
  (embedded further below).
-/

set_option maxHeartbeats 1600000

namespace Spec2Proof

/-! ## Crawler data model (`1_word_assembler.py`) -/

/-- One fetched synset.  `mainLemma` is the full lemma of
`synset.main_sense(Language.EN)` (`none` when there is no main sense);
the five edge fields are the target-id lists of `outgoing_edges` for the
pointers `ANY_HYPERNYM`, `ANY_HYPONYM`, `PART_MERONYM`, `MEMBER_MERONYM`
and `SUBSTANCE_MERONYM`; a `none` edge list models the call raising. -/
structure Synset where
  mainLemma : Option String
  hypernymEdges : Option (List String)
  hyponymEdges : Option (List String)
  partEdges : Option (List String)
  memberEdges : Option (List String)
  substanceEdges : Option (List String)
  deriving Repr, DecidableEq

/-- The remote graph service: `get_cached_synset` keyed by the synset-id
string.  `none` models a failed or missing fetch. -/
abbrev Graph := String → Option Synset

/-- `get_lemma`: `"N/A"` for a `None` synset or a synset without an EN
main sense, otherwise the main sense's full lemma. -/
def getLemma : Option Synset → String
  | none => "N/A"
  | some s => s.mainLemma.getD "N/A"

/-- One relation item as built by `fetch_edges` / `get_cohyponyms`:
the dict `{"id": ..., "lemma": ..., "relation": ...}`.  The `relation`
string is carried along as in the source (it is only printed there). -/
structure RelItem where
  id : String
  lem : String
  rel : String
  deriving Repr, DecidableEq

/-- The loop body of `fetch_edges`: for each edge target, fetch the synset
and its lemma, append the item when the lemma is not `"N/A"`, and break
as soon as `len(items) >= max_items` (the check runs *after* the append). -/
def fetchEdgesLoop (g : Graph) (relationType : String) (maxItems : Nat) :
    List String → List RelItem → List RelItem
  | [], acc => acc
  | e :: es, acc =>
    let lem := getLemma (g e)
    let acc' := if lem ≠ "N/A" then acc ++ [⟨e, lem, relationType⟩] else acc
    if maxItems ≤ acc'.length then acc'
    else fetchEdgesLoop g relationType maxItems es acc'

/-- `fetch_edges`: an edge list of `none` models `outgoing_edges` raising,
caught by the `try/except`, so the empty item list is returned. -/
def fetchEdges (g : Graph) (edges : Option (List String))
    (relationType : String) (maxItems : Nat) : List RelItem :=
  match edges with
  | none => []
  | some es => fetchEdgesLoop g relationType maxItems es []

/-- `fetch_hypernyms`. -/
def fetchHypernyms (g : Graph) (s : Synset) (maxItems : Nat) : List RelItem :=
  fetchEdges g s.hypernymEdges "hypernym" maxItems

/-- `fetch_hyponyms`. -/
def fetchHyponyms (g : Graph) (s : Synset) (maxItems : Nat) : List RelItem :=
  fetchEdges g s.hyponymEdges "hyponym" maxItems

/-- `fetch_meronyms`: extend over the three meronym pointers, breaking once
`len(items) >= max_items`, and finally truncate with `items[:max_items]`. -/
def fetchMeronyms (g : Graph) (s : Synset) (maxItems : Nat) : List RelItem :=
  let items1 := fetchEdges g s.partEdges "meronym" maxItems
  if maxItems ≤ items1.length then items1.take maxItems
  else
    let items2 := items1 ++ fetchEdges g s.memberEdges "meronym" maxItems
    if maxItems ≤ items2.length then items2.take maxItems
    else (items2 ++ fetchEdges g s.substanceEdges "meronym" maxItems).take maxItems

/-- Inner loop of `get_cohyponyms`: over the hyponym edges of one hypernym,
appending targets other than the synset itself whose lemma is valid; the
`len >= max_items` break check runs on every iteration, after the append. -/
def cohypInner (g : Graph) (selfId : String) (maxItems : Nat) :
    List String → List RelItem → List RelItem
  | [], acc => acc
  | h :: hs, acc =>
    let acc' :=
      if h ≠ selfId then
        let lem := getLemma (g h)
        if lem ≠ "N/A" then acc ++ [⟨h, lem, "cohyponym"⟩] else acc
      else acc
    if maxItems ≤ acc'.length then acc'
    else cohypInner g selfId maxItems hs acc'

/-- Outer loop of `get_cohyponyms`: over the hypernym edges.  A hypernym
whose fetch fails is skipped (`continue`); a hypernym synset whose hyponym
`outgoing_edges` call raises aborts the loop with the items collected so
far (the exception is caught by the function-level `try/except`). -/
def cohypOuter (g : Graph) (selfId : String) (maxItems : Nat) :
    List String → List RelItem → List RelItem
  | [], acc => acc
  | h :: hs, acc =>
    match g h with
    | none => cohypOuter g selfId maxItems hs acc
    | some hsyn =>
      match hsyn.hyponymEdges with
      | none => acc
      | some hypo =>
        let acc' := cohypInner g selfId maxItems hypo acc
        if maxItems ≤ acc'.length then acc'
        else cohypOuter g selfId maxItems hs acc'

/-- `get_cohyponyms`: a failing hypernym `outgoing_edges` call at the top
returns the empty list. -/
def getCohyponyms (g : Graph) (selfId : String) (s : Synset) (maxItems : Nat) :
    List RelItem :=
  match s.hypernymEdges with
  | none => []
  | some hEdges => cohypOuter g selfId maxItems hEdges []

/-- The `all_relations` list built inside `traverse_synset`. -/
def allRelations (g : Graph) (currentId : String) (s : Synset) (maxItems : Nat) :
    List RelItem :=
  fetchHypernyms g s maxItems ++ fetchHyponyms g s maxItems ++
    fetchMeronyms g s maxItems ++ getCohyponyms g currentId s maxItems

/-- The BFS loop of `traverse_synset`.  `visited` is the insertion-ordered
dict mapping discovered ids to lemmas; the queue holds `(id, depth)`
pairs.  `fuel` bounds the number of loop iterations (the Python loop
terminates because the remote graph is finite; every theorem below either
holds for all fuel or assumes enough of it). -/
def crawlLoop (g : Graph) (maxDepth maxItems : Nat) :
    Nat → List (String × Nat) → List (String × String) → List (String × String)
  | 0, _, visited => visited
  | _ + 1, [], visited => visited
  | fuel + 1, (currentId, currentDepth) :: rest, visited =>
    if (visited.lookup currentId).isSome then
      crawlLoop g maxDepth maxItems fuel rest visited
    else
      match g currentId with
      | none => crawlLoop g maxDepth maxItems fuel rest visited
      | some s =>
        let lem := getLemma (some s)
        let visited' := visited ++ [(currentId, lem)]
        if maxDepth ≤ currentDepth then
          crawlLoop g maxDepth maxItems fuel rest visited'
        else
          let rels := allRelations g currentId s maxItems
          let fresh := rels.filter (fun r => (visited'.lookup r.id).isNone)
          crawlLoop g maxDepth maxItems fuel
            (rest ++ fresh.map (fun r => (r.id, currentDepth + 1))) visited'

/-- `traverse_synset`: BFS from a single root, threading the shared
`visited` dict. -/
def traverseSynset (g : Graph) (synsetId : String) (maxDepth : Nat)
    (visited : List (String × String)) (maxItems fuel : Nat) :
    List (String × String) :=
  crawlLoop g maxDepth maxItems fuel [(synsetId, 0)] visited

/-- `process_file` without the file I/O: fold `traverse_synset` over the
seed ids, starting from an empty `visited` dict. -/
def processFile (g : Graph) (synsetIds : List String)
    (maxDepth maxItems fuel : Nat) : List (String × String) :=
  synsetIds.foldl
    (fun visited sid => traverseSynset g sid maxDepth visited maxItems fuel) []

/-! ## Generic `List.lookup` helpers (the `visited` dict) -/

theorem lookup_append_eq (l₁ l₂ : List (String × String)) (a : String) :
    (l₁ ++ l₂).lookup a = ((l₁.lookup a).or (l₂.lookup a)) := by
  induction l₁ with
  | nil => simp [List.lookup]
  | cons p l ih =>
    obtain ⟨k, v⟩ := p
    cases h : (a == k) with
    | true => simp [List.lookup, h]
    | false => simp [List.lookup, h, ih]

theorem lookup_mem_of_eq_some {l : List (String × String)} {a v : String}
    (h : l.lookup a = some v) : (a, v) ∈ l := by
  induction l with
  | nil => simp [List.lookup] at h
  | cons p l ih =>
    obtain ⟨k, w⟩ := p
    cases hk : (a == k) with
    | true =>
      simp only [List.lookup, hk] at h
      obtain rfl : w = v := by simpa using h
      obtain rfl : a = k := by simpa using hk
      exact List.mem_cons_self _ _
    | false =>
      simp only [List.lookup, hk] at h
      exact List.mem_cons_of_mem _ (ih h)

/-! ## Crawler lemmas -/

/-- An empty queue leaves `visited` untouched, at any fuel. -/
theorem crawlLoop_nil (g : Graph) (D K : Nat) (fuel : Nat)
    (v : List (String × String)) : crawlLoop g D K fuel [] v = v := by
  cases fuel <;> rfl

/-- Definitional unfolding of one loop iteration. -/
theorem crawlLoop_cons (g : Graph) (D K n cd : Nat) (cid : String)
    (rest : List (String × Nat)) (v : List (String × String)) :
    crawlLoop g D K (n + 1) ((cid, cd) :: rest) v =
      if (v.lookup cid).isSome then crawlLoop g D K n rest v
      else
        match g cid with
        | none => crawlLoop g D K n rest v
        | some s =>
          if D ≤ cd then
            crawlLoop g D K n rest (v ++ [(cid, getLemma (some s))])
          else
            crawlLoop g D K n
              (rest ++
                ((allRelations g cid s K).filter
                  (fun r => ((v ++ [(cid, getLemma (some s))]).lookup r.id).isNone)).map
                  (fun r => (r.id, cd + 1)))
              (v ++ [(cid, getLemma (some s))]) := rfl

/-- Entries already recorded in `visited` survive any further crawling:
the loop only ever appends to the dict. -/
theorem crawlLoop_lookup_mono (g : Graph) (D K : Nat) :
    ∀ (fuel : Nat) (q : List (String × Nat)) (v : List (String × String))
      (a b : String), v.lookup a = some b →
      (crawlLoop g D K fuel q v).lookup a = some b := by
  intro fuel
  induction fuel with
  | zero => intro q v a b h; simpa [crawlLoop] using h
  | succ n ih =>
    intro q v a b h
    match q with
    | [] => simpa [crawlLoop] using h
    | (currentId, currentDepth) :: rest =>
      rw [crawlLoop_cons]
      have hmono : ∀ s : Synset,
          (v ++ [(currentId, getLemma (some s))]).lookup a = some b := by
        intro s; rw [lookup_append_eq, h]; rfl
      split
      · exact ih _ _ _ _ h
      · split
        · exact ih _ _ _ _ h
        · split
          · exact ih _ _ _ _ (hmono _)
          · exact ih _ _ _ _ (hmono _)

/-- With `max_depth = 0` a single `traverse_synset` call records the root
(when its fetch succeeds and it is not already recorded) and nothing else. -/
theorem traverseSynset_depth_zero (g : Graph) (s : String)
    (v : List (String × String)) (K fuel : Nat) :
    traverseSynset g s 0 v K (fuel + 1) =
      if (v.lookup s).isSome then v
      else
        match g s with
        | none => v
        | some syn => v ++ [(s, getLemma (some syn))] := by
  rw [traverseSynset, crawlLoop_cons]
  by_cases hv : (v.lookup s).isSome
  · rw [if_pos hv, if_pos hv, crawlLoop_nil]
  · rw [if_neg hv, if_neg hv]
    cases hg : g s with
    | none => exact crawlLoop_nil g 0 K fuel v
    | some syn => exact crawlLoop_nil g 0 K fuel (v ++ [(s, getLemma (some syn))])

/-- A mock graph on which every fetch fails. -/
def gNone : Graph := fun _ => none

/-- A two-node mock graph: `bn:A` (lemma `animal`) has the single hypernym
`bn:B` (lemma `dog`); every other id fails to fetch. -/
def gTwo : Graph := fun id =>
  if id = "bn:A" then
    some ⟨some "animal", some ["bn:B"], some [], some [], some [], some []⟩
  else if id = "bn:B" then
    some ⟨some "dog", some [], some [], some [], some [], some []⟩
  else none

/-- A mock graph for the missing-label scenario: `bn:A` (lemma `animal`)
has the hypernym `bn:B`, whose synset fetch succeeds but which has no EN
main sense. -/
def gC5 : Graph := fun id =>
  if id = "bn:A" then
    some ⟨some "animal", some ["bn:B"], some [], some [], some [], some []⟩
  else if id = "bn:B" then
    some ⟨none, some [], some [], some [], some [], some []⟩
  else none

/-- A synset whose every `outgoing_edges` call fails. -/
def synNone : Synset := ⟨some "word", none, none, none, none, none⟩

/-- A mock graph for a cohyponym fetch: the hypernym `bn:H` has the
hyponym `bn:Y` (lemma `y`); every other id fails to fetch. -/
def gCo : Graph := fun id =>
  if id = "bn:H" then
    some ⟨some "h", some [], some ["bn:Y"], some [], some [], some []⟩
  else if id = "bn:Y" then
    some ⟨some "y", some [], some [], some [], some [], some []⟩
  else none

/-- The synset of a node `bn:X` of `gCo` whose single hypernym is `bn:H`. -/
def synCo : Synset := ⟨some "x", some ["bn:H"], some [], some [], some [], some []⟩

/-! ## C7: depth-0 crawls -/

/-- One `traverse_synset` fold step at depth 0, at the `isSome` level. -/
theorem traverseSynset_depth_zero_isSome (g : Graph) (s a : String)
    (v : List (String × String)) (K f : Nat) :
    ((traverseSynset g s 0 v K (f + 1)).lookup a).isSome ↔
      ((v.lookup a).isSome ∨ (a = s ∧ (g a).isSome)) := by
  rw [traverseSynset_depth_zero]
  by_cases hv : (v.lookup s).isSome
  · rw [if_pos hv]
    constructor
    · exact fun h => Or.inl h
    · rintro (h | ⟨rfl, _⟩)
      · exact h
      · exact hv
  · rw [if_neg hv]
    cases hg : g s with
    | none =>
      constructor
      · exact fun h => Or.inl h
      · rintro (h | ⟨rfl, hs⟩)
        · exact h
        · rw [hg] at hs; simp at hs
    | some syn =>
      rw [lookup_append_eq]
      constructor
      · intro h
        cases hva : v.lookup a with
        | some b => exact Or.inl rfl
        | none =>
          rw [hva] at h
          refine Or.inr ?_
          by_cases has : a = s
          · exact ⟨has, by rw [has, hg]; rfl⟩
          · exfalso
            have hone : List.lookup a [(s, getLemma (some syn))] = none := by
              have hbeq : (a == s) = false := beq_eq_false_iff_ne.mpr has
              simp [List.lookup, hbeq]
            rw [hone] at h
            simp at h
      · rintro (h | ⟨rfl, _⟩)
        · cases hva : v.lookup a with
          | some b => rfl
          | none => rw [hva] at h; simp at h
        · cases hva : v.lookup a with
          | some b => rfl
          | none => simp [List.lookup]

/-- The depth-0 invariant over the seed fold of `process_file`. -/
theorem processFold_depth_zero (g : Graph) (K f : Nat) :
    ∀ (seeds : List String) (v : List (String × String)) (a : String),
      (((seeds.foldl
          (fun visited sid => traverseSynset g sid 0 visited K (f + 1)) v)).lookup a).isSome ↔
        ((v.lookup a).isSome ∨ (a ∈ seeds ∧ (g a).isSome)) := by
  intro seeds
  induction seeds with
  | nil => intro v a; simp
  | cons s ss ih =>
    intro v a
    rw [List.foldl_cons, ih, traverseSynset_depth_zero_isSome]
    constructor
    · rintro ((h | ⟨rfl, hs⟩) | ⟨hmem, hs⟩)
      · exact Or.inl h
      · exact Or.inr ⟨List.mem_cons_self _ _, hs⟩
      · exact Or.inr ⟨List.mem_cons_of_mem _ hmem, hs⟩
    · rintro (h | ⟨hmem, hs⟩)
      · exact Or.inl (Or.inl h)
      · rcases List.mem_cons.mp hmem with rfl | hmem'
        · exact Or.inl (Or.inr ⟨rfl, hs⟩)
        · exact Or.inr ⟨hmem', hs⟩

/-- C7 (amended): with `max_depth = 0`, the crawl output's key set is
exactly the set of seeds whose synset fetch succeeds; no neighbor of any
seed is ever discovered.  (The claim as frozen says the output equals the
whole seed set; a seed whose fetch fails is absent, see the
counterexample.) -/
theorem C7_depth_zero_amended (g : Graph) (seeds : List String)
    (K fuel : Nat) (hf : 1 ≤ fuel) (a : String) :
    ((processFile g seeds 0 K fuel).lookup a).isSome ↔
      (a ∈ seeds ∧ (g a).isSome) := by
  obtain ⟨f, rfl⟩ : ∃ f, fuel = f + 1 :=
    ⟨fuel - 1, (Nat.succ_pred_eq_of_pos hf).symm⟩
  rw [processFile]
  rw [processFold_depth_zero]
  simp [List.lookup]

/-- C7 (counterexample to the claim as frozen): on a graph where the seed's
fetch fails, the depth-0 output is empty, not the seed set. -/
theorem C7_depth_zero_counterexample :
    ¬ (∀ a : String,
        ((processFile gNone ["bn:00015267n"] 0 50 8).lookup a).isSome ↔
          a ∈ ["bn:00015267n"]) := by
  intro hcl
  have h := (hcl "bn:00015267n").mpr (by simp)
  have hval : processFile gNone ["bn:00015267n"] 0 50 8 = [] := rfl
  rw [hval] at h
  simp [List.lookup] at h

/-- Witness for `C7_depth_zero_amended` at a concrete graph and seed. -/
theorem C7_depth_zero_witness :
    ((processFile gTwo ["bn:A"] 0 50 8).lookup "bn:A").isSome ↔
      ("bn:A" ∈ ["bn:A"] ∧ (gTwo "bn:A").isSome) :=
  C7_depth_zero_amended gTwo ["bn:A"] 50 8 (by decide) "bn:A"

/-! ## C3: zero fan-out crawls -/

/-- C3 (counterexample to the claim as frozen): with `max_items = 0` and
depth 1, the crawl from `bn:A` still discovers the neighbor `bn:B`,
because `fetch_edges` checks `len(items) >= max_items` only *after*
appending an item. -/
theorem C3_zero_fanout_counterexample :
    ¬ (∀ a : String,
        ((processFile gTwo ["bn:A"] 1 0 8).lookup a).isSome ↔ a ∈ ["bn:A"]) := by
  intro hcl
  have hval : processFile gTwo ["bn:A"] 1 0 8 =
      [("bn:A", "animal"), ("bn:B", "dog")] := rfl
  have h := (hcl "bn:B").mp (by rw [hval]; rfl)
  simp at h

/-- Auxiliary: the inner cohyponym loop at `max_items = 0` keeps at most
one item. -/
theorem cohypInner_zero_len (g : Graph) (selfId : String)
    (hypo : List String) : (cohypInner g selfId 0 hypo []).length ≤ 1 := by
  cases hypo with
  | nil => simp [cohypInner]
  | cons h hs =>
    simp only [cohypInner]
    rw [if_pos (Nat.zero_le _)]
    split
    · split <;> simp
    · simp

/-- Auxiliary: the outer cohyponym loop at `max_items = 0` keeps at most
one item. -/
theorem cohypOuter_zero_len (g : Graph) (selfId : String) :
    ∀ hEdges : List String, (cohypOuter g selfId 0 hEdges []).length ≤ 1 := by
  intro hEdges
  induction hEdges with
  | nil => simp [cohypOuter]
  | cons h hs ih =>
    simp only [cohypOuter]
    split
    · exact ih
    · split
      · simp
      · rw [if_pos (Nat.zero_le _)]
        exact cohypInner_zero_len g selfId _

/-- C3 (amended): with per-kind fan-out `K = 0` the crawl does not stay at
the seed set.  `fetch_edges` checks `len(items) >= max_items` only after
appending, so a `K = 0` edge fetch processes exactly the first edge and
retains its item exactly when that target's lemma is valid (first
conjunct: exact characterization on a non-empty edge list); a meronym
fetch ends with `items[:0]` and returns nothing; a cohyponym fetch keeps
at most one item and can keep one (concrete instance on `gCo`); and a
`K = 0` crawl with `D = 1` can discover a non-seed node (concrete
instance on `gTwo`, see also the counterexample). -/
theorem C3_zero_fanout_amended (g : Graph) (e : String) (es : List String)
    (t : String) (s : Synset) (selfId : String) :
    (fetchEdges g (some (e :: es)) t 0 =
      if getLemma (g e) ≠ "N/A" then [⟨e, getLemma (g e), t⟩] else []) ∧
    fetchMeronyms g s 0 = [] ∧
    ((getCohyponyms g selfId s 0).length ≤ 1 ∧
      getCohyponyms gCo "bn:X" synCo 0 = [⟨"bn:Y", "y", "cohyponym"⟩]) ∧
    ("bn:B" ∉ (["bn:A"] : List String) ∧
      ((processFile gTwo ["bn:A"] 1 0 8).lookup "bn:B").isSome) := by
  refine ⟨?_, ?_, ⟨?_, by decide⟩, by decide, by decide⟩
  · show fetchEdgesLoop g t 0 (e :: es) [] = _
    simp only [fetchEdgesLoop]
    rw [if_pos (Nat.zero_le _)]
    split <;> simp_all
  · simp only [fetchMeronyms]
    rw [if_pos (Nat.zero_le _)]
    simp
  · rw [getCohyponyms]
    split
    · simp
    · exact cohypOuter_zero_len g selfId _

/-! ## C9: failed fetches are absorbed -/

/-- C9: a node whose synset fetch fails contributes nothing and the crawl
simply continues with the remaining queue; a relation-kind fetch whose
`outgoing_edges` call fails (modelled by a `none` edge list) contributes
the empty item list.  The `try/except` blocks of the source are modelled
by these `none` results, so no failure ever escapes the fetch's scope. -/
theorem C9_fetch_failure_swallowed :
    (∀ (g : Graph) (D K fuel cd : Nat) (cid : String)
        (rest : List (String × Nat)) (v : List (String × String)),
        g cid = none →
        crawlLoop g D K (fuel + 1) ((cid, cd) :: rest) v =
          crawlLoop g D K fuel rest v) ∧
    (∀ (g : Graph) (t : String) (m : Nat), fetchEdges g none t m = []) ∧
    (∀ (g : Graph) (s : Synset) (m : Nat),
        s.partEdges = none → s.memberEdges = none → s.substanceEdges = none →
        fetchMeronyms g s m = []) ∧
    (∀ (g : Graph) (selfId : String) (s : Synset) (m : Nat),
        s.hypernymEdges = none → getCohyponyms g selfId s m = []) := by
  refine ⟨?_, ?_, ?_, ?_⟩
  · intro g D K fuel cd cid rest v hg
    rw [crawlLoop_cons]
    by_cases hv : (v.lookup cid).isSome
    · rw [if_pos hv]
    · rw [if_neg hv, hg]
  · intro g t m; rfl
  · intro g s m h1 h2 h3
    simp only [fetchMeronyms, h1, h2, h3, fetchEdges]
    split <;> simp
  · intro g selfId s m h
    simp [getCohyponyms, h]

/-- Witness for `C9_fetch_failure_swallowed` at concrete inputs. -/
theorem C9_fetch_failure_witness :
    (gTwo "bn:C" = none ∧
      crawlLoop gTwo 4 50 3 [("bn:C", 0)] [] = crawlLoop gTwo 4 50 2 [] []) ∧
    (synNone.hypernymEdges = none ∧ getCohyponyms gTwo "bn:A" synNone 5 = []) ∧
    fetchMeronyms gTwo synNone 5 = [] :=
  ⟨⟨rfl, C9_fetch_failure_swallowed.1 gTwo 4 50 2 0 "bn:C" [] [] rfl⟩,
   ⟨rfl, C9_fetch_failure_swallowed.2.2.2 gTwo "bn:A" synNone 5 rfl⟩,
   C9_fetch_failure_swallowed.2.2.1 gTwo synNone 5 rfl rfl rfl⟩

/-! ## C5: output labels -/

/-- Items appended by the `fetch_edges` loop all have a valid (non-`"N/A"`)
lemma at their target id. -/
theorem fetchEdgesLoop_lemma_valid (g : Graph) (t : String) (m : Nat) :
    ∀ (es : List String) (acc : List RelItem),
      (∀ r ∈ acc, getLemma (g r.id) ≠ "N/A") →
      ∀ r ∈ fetchEdgesLoop g t m es acc, getLemma (g r.id) ≠ "N/A" := by
  intro es
  induction es with
  | nil => intro acc hacc r hr; exact hacc r hr
  | cons e es' ih =>
    intro acc hacc r hr
    simp only [fetchEdgesLoop] at hr
    by_cases hl : getLemma (g e) = "N/A"
    · rw [if_neg (not_not_intro hl)] at hr
      by_cases hm : m ≤ acc.length
      · rw [if_pos hm] at hr; exact hacc r hr
      · rw [if_neg hm] at hr; exact ih acc hacc r hr
    · have hl' : getLemma (g e) ≠ "N/A" := hl
      rw [if_pos hl'] at hr
      have hacc' : ∀ r' ∈ acc ++ [(⟨e, getLemma (g e), t⟩ : RelItem)],
          getLemma (g r'.id) ≠ "N/A" := by
        intro r' hr'
        rcases List.mem_append.mp hr' with hm | hm
        · exact hacc r' hm
        · rcases List.mem_singleton.mp hm with rfl; exact hl'
      by_cases hm : m ≤ (acc ++ [(⟨e, getLemma (g e), t⟩ : RelItem)]).length
      · rw [if_pos hm] at hr; exact hacc' r hr
      · rw [if_neg hm] at hr; exact ih _ hacc' r hr

/-- Every `fetch_edges` item has a valid lemma at its id. -/
theorem fetchEdges_lemma_valid (g : Graph) (eo : Option (List String))
    (t : String) (m : Nat) :
    ∀ r ∈ fetchEdges g eo t m, getLemma (g r.id) ≠ "N/A" := by
  cases eo with
  | none => intro r hr; simp [fetchEdges] at hr
  | some es =>
    exact fetchEdgesLoop_lemma_valid g t m es [] (by intro r hr; simp at hr)

/-- Every `fetch_meronyms` item has a valid lemma at its id. -/
theorem fetchMeronyms_lemma_valid (g : Graph) (s : Synset) (m : Nat) :
    ∀ r ∈ fetchMeronyms g s m, getLemma (g r.id) ≠ "N/A" := by
  intro r hr
  simp only [fetchMeronyms] at hr
  split at hr
  · exact fetchEdges_lemma_valid g _ _ m r (List.mem_of_mem_take hr)
  · split at hr
    · rcases List.mem_append.mp (List.mem_of_mem_take hr) with h | h
      · exact fetchEdges_lemma_valid g _ _ m r h
      · exact fetchEdges_lemma_valid g _ _ m r h
    · rcases List.mem_append.mp (List.mem_of_mem_take hr) with h | h
      · rcases List.mem_append.mp h with h' | h'
        · exact fetchEdges_lemma_valid g _ _ m r h'
        · exact fetchEdges_lemma_valid g _ _ m r h'
      · exact fetchEdges_lemma_valid g _ _ m r h

/-- Items appended by the inner cohyponym loop all have a valid lemma. -/
theorem cohypInner_lemma_valid (g : Graph) (selfId : String) (m : Nat) :
    ∀ (hypo : List String) (acc : List RelItem),
      (∀ r ∈ acc, getLemma (g r.id) ≠ "N/A") →
      ∀ r ∈ cohypInner g selfId m hypo acc, getLemma (g r.id) ≠ "N/A" := by
  intro hypo
  induction hypo with
  | nil => intro acc hacc r hr; exact hacc r hr
  | cons h hs ih =>
    intro acc hacc r hr
    simp only [cohypInner] at hr
    by_cases hself : h ≠ selfId
    · rw [if_pos hself] at hr
      by_cases hlem : getLemma (g h) = "N/A"
      · rw [if_neg (not_not_intro hlem)] at hr
        by_cases hm : m ≤ acc.length
        · rw [if_pos hm] at hr; exact hacc r hr
        · rw [if_neg hm] at hr; exact ih acc hacc r hr
      · have hlem' : getLemma (g h) ≠ "N/A" := hlem
        rw [if_pos hlem'] at hr
        have hacc2 : ∀ r' ∈ acc ++ [(⟨h, getLemma (g h), "cohyponym"⟩ : RelItem)],
            getLemma (g r'.id) ≠ "N/A" := by
          intro r' hr'
          rcases List.mem_append.mp hr' with hm | hm
          · exact hacc r' hm
          · rcases List.mem_singleton.mp hm with rfl; exact hlem'
        by_cases hm : m ≤ (acc ++ [(⟨h, getLemma (g h), "cohyponym"⟩ : RelItem)]).length
        · rw [if_pos hm] at hr; exact hacc2 r hr
        · rw [if_neg hm] at hr; exact ih _ hacc2 r hr
    · rw [if_neg hself] at hr
      by_cases hm : m ≤ acc.length
      · rw [if_pos hm] at hr; exact hacc r hr
      · rw [if_neg hm] at hr; exact ih acc hacc r hr

/-- Items kept by the outer cohyponym loop all have a valid lemma. -/
theorem cohypOuter_lemma_valid (g : Graph) (selfId : String) (m : Nat) :
    ∀ (hEdges : List String) (acc : List RelItem),
      (∀ r ∈ acc, getLemma (g r.id) ≠ "N/A") →
      ∀ r ∈ cohypOuter g selfId m hEdges acc, getLemma (g r.id) ≠ "N/A" := by
  intro hEdges
  induction hEdges with
  | nil => intro acc hacc r hr; exact hacc r hr
  | cons h hs ih =>
    intro acc hacc r hr
    simp only [cohypOuter] at hr
    split at hr
    · exact ih acc hacc r hr
    · split at hr
      · exact hacc r hr
      · rename_i es hhe
        have hacc' := cohypInner_lemma_valid g selfId m es acc hacc
        by_cases hm : m ≤ (cohypInner g selfId m es acc).length
        · rw [if_pos hm] at hr; exact hacc' r hr
        · rw [if_neg hm] at hr; exact ih _ hacc' r hr

/-- Every `get_cohyponyms` item has a valid lemma at its id. -/
theorem getCohyponyms_lemma_valid (g : Graph) (selfId : String) (s : Synset)
    (m : Nat) : ∀ r ∈ getCohyponyms g selfId s m, getLemma (g r.id) ≠ "N/A" := by
  intro r hr
  rw [getCohyponyms] at hr
  split at hr
  · simp at hr
  · exact cohypOuter_lemma_valid g selfId m _ [] (by intro r' hr'; simp at hr') r hr

/-- Every relation item collected by `traverse_synset` has a valid lemma
at its target id (this is why unlabelled neighbors are never enqueued). -/
theorem allRelations_lemma_valid (g : Graph) (cid : String) (s : Synset)
    (K : Nat) : ∀ r ∈ allRelations g cid s K, getLemma (g r.id) ≠ "N/A" := by
  intro r hr
  rw [allRelations] at hr
  rcases List.mem_append.mp hr with h | h
  · rcases List.mem_append.mp h with h' | h'
    · rcases List.mem_append.mp h' with h'' | h''
      · exact fetchEdges_lemma_valid g _ _ K r h''
      · exact fetchEdges_lemma_valid g _ _ K r h''
    · exact fetchMeronyms_lemma_valid g s K r h'
  · exact getCohyponyms_lemma_valid g cid s K r h

/-- The crawl-loop invariant behind C5: every recorded entry's value is the
reference-language label of its id (`"N/A"` when missing), and every
recorded non-seed entry has a valid label. -/
theorem crawlLoop_entries_inv (g : Graph) (D K : Nat) (S : List String) :
    ∀ (fuel : Nat) (q : List (String × Nat)) (v : List (String × String)),
      (∀ p ∈ q, (p : String × Nat).1 ∈ S ∨ getLemma (g p.1) ≠ "N/A") →
      (∀ p ∈ v, (p : String × String).2 = getLemma (g p.1) ∧
        (p.1 ∉ S → p.2 ≠ "N/A")) →
      ∀ p ∈ crawlLoop g D K fuel q v,
        p.2 = getLemma (g p.1) ∧ (p.1 ∉ S → p.2 ≠ "N/A") := by
  intro fuel
  induction fuel with
  | zero => intro q v _ hv p hp; exact hv p (by simpa [crawlLoop] using hp)
  | succ n ih =>
    intro q v hq hv p hp
    match q with
    | [] => exact hv p (by simpa [crawlLoop] using hp)
    | (cid, cd) :: rest =>
      rw [crawlLoop_cons] at hp
      have hqrest : ∀ p ∈ rest, (p : String × Nat).1 ∈ S ∨ getLemma (g p.1) ≠ "N/A" :=
        fun p hp' => hq p (List.mem_cons_of_mem _ hp')
      by_cases hvis : (v.lookup cid).isSome
      · rw [if_pos hvis] at hp; exact ih rest v hqrest hv p hp
      · rw [if_neg hvis] at hp
        split at hp
        · exact ih rest v hqrest hv p hp
        · rename_i s hg
          have hvEntry : ∀ p' ∈ v ++ [(cid, getLemma (some s))],
              (p' : String × String).2 = getLemma (g p'.1) ∧
                (p'.1 ∉ S → p'.2 ≠ "N/A") := by
            intro p' hp'
            rcases List.mem_append.mp hp' with hmm | hmm
            · exact hv p' hmm
            · rcases List.mem_singleton.mp hmm with rfl
              refine ⟨by rw [hg], ?_⟩
              intro hnot
              rcases hq (cid, cd) (List.mem_cons_self _ _) with hS | hlem
              · exact absurd hS hnot
              · rw [hg] at hlem; exact hlem
          split at hp
          · exact ih rest _ hqrest hvEntry p hp
          · refine ih _ _ ?_ hvEntry p hp
            intro p' hp'
            rcases List.mem_append.mp hp' with hmm | hmm
            · exact hqrest p' hmm
            · rcases List.mem_map.mp hmm with ⟨r, hrmem, rfl⟩
              exact Or.inr (allRelations_lemma_valid g cid s K r
                (List.mem_of_mem_filter hrmem))

/-- The entry invariant carried over the seed fold of `process_file`. -/
theorem processFold_entries (g : Graph) (D K fuel : Nat) (S : List String) :
    ∀ (l : List String) (v : List (String × String)), (∀ x ∈ l, x ∈ S) →
      (∀ p ∈ v, (p : String × String).2 = getLemma (g p.1) ∧
        (p.1 ∉ S → p.2 ≠ "N/A")) →
      ∀ p ∈ l.foldl (fun vis sid => traverseSynset g sid D vis K fuel) v,
        p.2 = getLemma (g p.1) ∧ (p.1 ∉ S → p.2 ≠ "N/A") := by
  intro l
  induction l with
  | nil => intro v _ hv p hp; exact hv p (by simpa using hp)
  | cons x l' ih =>
    intro v hsub hv p hp
    rw [List.foldl_cons] at hp
    refine ih _ (fun y hy => hsub y (List.mem_cons_of_mem _ hy)) ?_ p hp
    have hx : x ∈ S := hsub x (List.mem_cons_self _ _)
    exact crawlLoop_entries_inv g D K S fuel [(x, 0)] v
      (by intro p' hp'; rcases List.mem_singleton.mp hp' with rfl; exact Or.inl hx)
      hv

/-- `isSome`-level monotonicity of the crawl loop. -/
theorem crawlLoop_lookup_isSome_mono (g : Graph) (D K fuel : Nat)
    (q : List (String × Nat)) (v : List (String × String)) (a : String)
    (h : (v.lookup a).isSome) : ((crawlLoop g D K fuel q v).lookup a).isSome := by
  obtain ⟨b, hb⟩ := Option.isSome_iff_exists.mp h
  rw [Option.isSome_iff_exists]
  exact ⟨b, crawlLoop_lookup_mono g D K fuel q v a b hb⟩

/-- A root whose fetch succeeds is recorded by its own `traverse_synset`
call (at any depth bound). -/
theorem traverseSynset_lookup_self (g : Graph) (s : String) (D K f : Nat)
    (v : List (String × String)) (hs : (g s).isSome) :
    ((traverseSynset g s D v K (f + 1)).lookup s).isSome := by
  rw [traverseSynset, crawlLoop_cons]
  by_cases hv : (v.lookup s).isSome
  · rw [if_pos hv]; exact crawlLoop_lookup_isSome_mono g D K f [] v s hv
  · rw [if_neg hv]
    split
    · rename_i hg; rw [hg] at hs; simp at hs
    · rename_i syn hg
      have hv' : ((v ++ [(s, getLemma (some syn))]).lookup s).isSome := by
        rw [lookup_append_eq, Option.not_isSome_iff_eq_none.mp hv]
        simp [List.lookup]
      split
      · exact crawlLoop_lookup_isSome_mono g D K f _ _ s hv'
      · exact crawlLoop_lookup_isSome_mono g D K f _ _ s hv'

/-- `isSome`-level monotonicity of the seed fold. -/
theorem processFold_lookup_isSome_mono (g : Graph) (D K fuel : Nat) :
    ∀ (l : List String) (v : List (String × String)) (a : String),
      (v.lookup a).isSome →
      ((l.foldl (fun vis sid => traverseSynset g sid D vis K fuel) v).lookup a).isSome := by
  intro l
  induction l with
  | nil => intro v a h; simpa using h
  | cons x l' ih =>
    intro v a h
    rw [List.foldl_cons]
    exact ih _ a (crawlLoop_lookup_isSome_mono g D K fuel [(x, 0)] v a h)

/-- Every seed whose fetch succeeds ends up recorded by the seed fold. -/
theorem processFold_seed_present (g : Graph) (D K f : Nat) :
    ∀ (l : List String) (v : List (String × String)) (s : String),
      s ∈ l → (g s).isSome →
      ((l.foldl (fun vis sid => traverseSynset g sid D vis K (f + 1)) v).lookup s).isSome := by
  intro l
  induction l with
  | nil => intro v s hs; simp at hs
  | cons x l' ih =>
    intro v s hs hgs
    rw [List.foldl_cons]
    rcases List.mem_cons.mp hs with rfl | hmem
    · exact processFold_lookup_isSome_mono g D K (f + 1) l' _ s
        (traverseSynset_lookup_self g s D K f v hgs)
    · exact ih _ s hmem hgs

/-- C5 (amended): every entry of the crawl output maps an id to its
reference-language label as computed by `get_lemma` (so `"N/A"` exactly
when the label is missing), every *non-seed* entry has a valid label
(nodes without a reference-language label are filtered out of relation
items and are never discovered), and every seed whose fetch succeeds —
including one without a reference-language label, which is recorded as
`"N/A"` — does appear in the output.  (The claim as frozen asserts that
any *reachable* node without a reference-language label appears mapped to
`"N/A"`; that fails for non-seed nodes, see the counterexample.) -/
theorem C5_output_labels_amended (g : Graph) (seeds : List String)
    (D K fuel : Nat) :
    (∀ a v, (processFile g seeds D K fuel).lookup a = some v →
        v = getLemma (g a) ∧ (a ∉ seeds → v ≠ "N/A")) ∧
    (1 ≤ fuel → ∀ s ∈ seeds, (g s).isSome →
        ((processFile g seeds D K fuel).lookup s).isSome) := by
  constructor
  · intro a v hl
    have hmem := lookup_mem_of_eq_some hl
    exact processFold_entries g D K fuel seeds seeds [] (fun x hx => hx)
      (by intro p hp; simp at hp) (a, v) hmem
  · intro hf s hs hgs
    obtain ⟨f, rfl⟩ : ∃ f, fuel = f + 1 :=
      ⟨fuel - 1, (Nat.succ_pred_eq_of_pos hf).symm⟩
    exact processFold_seed_present g D K f seeds [] s hs hgs

/-- C5 (counterexample to the claim as frozen): `bn:B` is a hypernym
neighbor of the seed `bn:A`, its fetch succeeds, it is reachable within
the depth bound 1, and it has no reference-language label — yet it does
not appear in the output at all (it is filtered out during the edge
fetch), rather than appearing mapped to `"N/A"`. -/
theorem C5_output_labels_counterexample :
    (gC5 "bn:A").bind Synset.hypernymEdges = some ["bn:B"] ∧
    (gC5 "bn:B").isSome ∧ getLemma (gC5 "bn:B") = "N/A" ∧
    (processFile gC5 ["bn:A"] 1 10 8).lookup "bn:B" = none :=
  ⟨rfl, rfl, rfl, rfl⟩

/-- Witness for `C5_output_labels_amended` on the two-node mock graph. -/
theorem C5_output_labels_witness :
    ("animal" = getLemma (gTwo "bn:A") ∧
      ("bn:A" ∉ ["bn:A"] → "animal" ≠ "N/A")) ∧
    ((processFile gTwo ["bn:A"] 3 50 8).lookup "bn:A").isSome :=
  ⟨(C5_output_labels_amended gTwo ["bn:A"] 3 50 8).1 "bn:A" "animal" (by decide),
   (C5_output_labels_amended gTwo ["bn:A"] 3 50 8).2 (by decide) "bn:A"
     (by decide) (by decide)⟩

/-! ## `deduplicate` (`fetch_relatives_helper.py`) -/

/-- A relation item of `fetch_relatives_helper.py`: `{"id": ..., "lemma": ...}`. -/
structure HelperItem where
  id : String
  lem : String
  deriving Repr, DecidableEq

/-- The loop of `deduplicate`, threading the `seen` set of lemmas. -/
def dedupGo : List HelperItem → Finset String → List HelperItem
  | [], _ => []
  | i :: is, seen =>
    if i.lem ∈ seen then dedupGo is seen
    else i :: dedupGo is (insert i.lem seen)

/-- `deduplicate`: remove duplicates from a list of items by lemma,
keeping first occurrences. -/
def deduplicate (items : List HelperItem) : List HelperItem :=
  dedupGo items ∅

theorem dedupGo_sublist : ∀ (xs : List HelperItem) (seen : Finset String),
    List.Sublist (dedupGo xs seen) xs := by
  intro xs
  induction xs with
  | nil => intro seen; simp [dedupGo]
  | cons i is ih =>
    intro seen
    rw [dedupGo]
    by_cases h : i.lem ∈ seen
    · rw [if_pos h]; exact (ih seen).cons i
    · rw [if_neg h]; exact (ih (insert i.lem seen)).cons₂ i

theorem dedupGo_nodup_and_fresh : ∀ (xs : List HelperItem) (seen : Finset String),
    ((dedupGo xs seen).map (fun i => i.lem)).Nodup ∧
      ∀ i ∈ dedupGo xs seen, i.lem ∉ seen := by
  intro xs
  induction xs with
  | nil => intro seen; simp [dedupGo]
  | cons i is ih =>
    intro seen
    rw [dedupGo]
    by_cases h : i.lem ∈ seen
    · rw [if_pos h]; exact ih seen
    · rw [if_neg h]
      obtain ⟨hnd, hfresh⟩ := ih (insert i.lem seen)
      refine ⟨?_, ?_⟩
      · rw [List.map_cons, List.nodup_cons]
        refine ⟨?_, hnd⟩
        intro hmem
        rcases List.mem_map.mp hmem with ⟨j, hj, hjl⟩
        exact hfresh j hj (hjl ▸ Finset.mem_insert_self _ _)
      · intro j hj
        rcases List.mem_cons.mp hj with rfl | hj'
        · exact h
        · intro hjs
          exact hfresh j hj' (Finset.mem_insert_of_mem hjs)

theorem dedupGo_find_eq : ∀ (xs : List HelperItem) (seen : Finset String)
    (l : String), l ∉ seen →
    (dedupGo xs seen).find? (fun j => j.lem == l) =
      xs.find? (fun j => j.lem == l) := by
  intro xs
  induction xs with
  | nil => intro seen l _; rfl
  | cons i is ih =>
    intro seen l hl
    rw [dedupGo]
    by_cases h : i.lem ∈ seen
    · rw [if_pos h]
      have hb : (i.lem == l) = false := by
        refine beq_eq_false_iff_ne.mpr ?_
        intro heq; exact hl (heq ▸ h)
      rw [List.find?_cons, hb]
      exact ih seen l hl
    · rw [if_neg h]
      cases hb : (i.lem == l) with
      | true => rw [List.find?_cons, hb, List.find?_cons, hb]
      | false =>
        rw [List.find?_cons, hb, List.find?_cons, hb]
        refine ih (insert i.lem seen) l ?_
        intro hins
        rcases Finset.mem_insert.mp hins with heq | hseen
        · rw [heq] at hb
          simp at hb
        · exact hl hseen

theorem dedupGo_eq_self_of_nodup : ∀ (xs : List HelperItem) (seen : Finset String),
    (xs.map (fun i => i.lem)).Nodup → (∀ i ∈ xs, i.lem ∉ seen) →
    dedupGo xs seen = xs := by
  intro xs
  induction xs with
  | nil => intro seen _ _; rfl
  | cons i is ih =>
    intro seen hnd hfresh
    rw [dedupGo, if_neg (hfresh i (List.mem_cons_self _ _))]
    rw [List.map_cons, List.nodup_cons] at hnd
    congr 1
    refine ih (insert i.lem seen) hnd.2 ?_
    intro j hj hins
    rcases Finset.mem_insert.mp hins with heq | hseen
    · exact hnd.1 (heq ▸ List.mem_map_of_mem (fun k => k.lem) hj)
    · exact hfresh j (List.mem_cons_of_mem _ hj) hseen

/-- C10: `deduplicate` keeps each lemma at most once, is order-preserving
(its output is a sublist of the input), keeps for every lemma the *first*
item bearing it (the first match in the output is the first match in the
input), is idempotent, and never lengthens the list. -/
theorem C10_deduplicate_spec (xs : List HelperItem) :
    ((deduplicate xs).map (fun i => i.lem)).Nodup ∧
    List.Sublist (deduplicate xs) xs ∧
    (∀ l : String, (deduplicate xs).find? (fun j => j.lem == l) =
      xs.find? (fun j => j.lem == l)) ∧
    deduplicate (deduplicate xs) = deduplicate xs ∧
    (deduplicate xs).length ≤ xs.length := by
  refine ⟨(dedupGo_nodup_and_fresh xs ∅).1, dedupGo_sublist xs ∅,
    fun l => dedupGo_find_eq xs ∅ l (Finset.not_mem_empty l), ?_,
    (dedupGo_sublist xs ∅).length_le⟩
  exact dedupGo_eq_self_of_nodup (dedupGo xs ∅) ∅
    (dedupGo_nodup_and_fresh xs ∅).1
    (fun i _ => Finset.not_mem_empty i.lem)

/-! ## Question generator data model (`4_generate_questions.py`) -/

/-- A related entry nested under `hypernyms` / `hyponyms` / `meronyms` /
`cohyponyms`: its synset id and its per-language `translations` mapping
(`lang code ↦ lemma`; the source stores `{"lemma": ...}` dicts, of which
only the `lemma` field is ever read). -/
structure RelEntry where
  synset_id : String
  translations : List (String × String)
  deriving Repr, DecidableEq

/-- A top-level data entry: synset id, per-language translations, and the
four relation lists. -/
structure Entry where
  synset_id : String
  translations : List (String × String)
  hypernyms : List RelEntry
  hyponyms : List RelEntry
  meronyms : List RelEntry
  cohyponyms : List RelEntry
  deriving Repr, DecidableEq

/-- `entry.get(relation_field, [])` for the four relation keys used by the
generator (any other key yields nothing, as `dict.get` would). -/
def Entry.relationsOf (e : Entry) (field : String) : List RelEntry :=
  if field = "hypernyms" then e.hypernyms
  else if field = "hyponyms" then e.hyponyms
  else if field = "meronyms" then e.meronyms
  else if field = "cohyponyms" then e.cohyponyms
  else []

/-- The `QuestionGenerator` state: the loaded data plus the two
configuration numbers (`min_distractors = 3`, `n_choices = 4` by default). -/
structure Gen where
  data : List Entry
  minDistractors : Nat
  nChoices : Nat
  deriving Repr

/-- `self.synset_to_entry` (and the identical `self.synset_lookup`): a dict
comprehension keyed by synset id over entries with a truthy synset id;
later entries overwrite earlier ones, hence the reversed lookup. -/
def Gen.synsetToEntry (gen : Gen) (sid : String) : Option Entry :=
  (((gen.data.filter (fun e => e.synset_id ≠ "")).map
    (fun e => (e.synset_id, e))).reverse).lookup sid

/-- `self.lemma_lookup[lang]`: all lemmas of `lang` found in any entry's
own translations or in any of its relation entries' translations.
(`semantic_relations` is also built by `_build_lemma_lookup` but never
read afterwards, so it is not modelled.) -/
def Gen.lemmaLookup (gen : Gen) (lang : String) : Finset String :=
  gen.data.foldl (fun acc entry =>
    let acc1 := match entry.translations.lookup lang with
      | some l => insert l acc
      | none => acc
    (entry.hypernyms ++ entry.hyponyms ++ entry.meronyms ++ entry.cohyponyms).foldl
      (fun a re => match re.translations.lookup lang with
        | some l => insert l a
        | none => a) acc1) ∅

/-- The lemmas of `lang` carried by a list of relation entries (used by the
direct-relation / cohyponym / close-relation pools). -/
def relLemmas (rels : List RelEntry) (lang : String) : Finset String :=
  rels.foldl (fun a re => match re.translations.lookup lang with
    | some l => insert l a
    | none => a) ∅

/-- `LANGUAGE_CONFIG` from `language_config.py`, as
`resource level ↦ list of (name, code)` (the `Language` enum keys are
never read, only the `name`/`code` values). -/
def LANGUAGE_CONFIG : List (String × List (String × String)) :=
  [("high_resource",
    [("English", "en"), ("Spanish", "es"), ("French", "fr"), ("German", "de"),
     ("Italian", "it"), ("Portuguese", "pt"), ("Russian", "ru"), ("Chinese", "zh"),
     ("Japanese", "ja"), ("Korean", "ko"), ("Arabic", "ar"), ("Turkish", "tr"),
     ("Dutch", "nl"), ("Polish", "pl"), ("Swedish", "sv"), ("Norwegian", "no"),
     ("Danish", "da"), ("Finnish", "fi"), ("Czech", "cs"), ("Romanian", "ro"),
     ("Hungarian", "hu"), ("Ukrainian", "uk"), ("Hebrew", "he"), ("Bulgarian", "bg"),
     ("Greek", "el")]),
   ("medium_resource",
    [("Croatian", "hr"), ("Serbian", "sr"), ("Slovak", "sk"), ("Slovenian", "sl"),
     ("Lithuanian", "lt"), ("Latvian", "lv"), ("Estonian", "et"), ("Thai", "th"),
     ("Vietnamese", "vi"), ("Malay", "ms"), ("Persian", "fa"), ("Indonesian", "id"),
     ("Tamil", "ta"), ("Hindi", "hi"), ("Bengali", "bn")]),
   ("low_resource",
    [("Swahili", "sw"), ("Icelandic", "is"), ("Maltese", "mt"), ("Irish", "ga"),
     ("Welsh", "cy"), ("Bosnian", "bs"), ("Georgian", "ka"), ("Amharic", "am"),
     ("Uzbek", "uz"), ("Tagalog", "tl")])]

/-- `_get_lang_info`: the (name, resource level) of the first config entry
whose code matches; `(None, None)` when absent. -/
def getLangInfo (langCode : String) : Option String × Option String :=
  match LANGUAGE_CONFIG.findSome? (fun lv =>
    lv.2.findSome? (fun nv =>
      if nv.2 = langCode then some (nv.1, lv.1) else none)) with
  | some p => (some p.1, some p.2)
  | none => (none, none)

/-- How a Python f-string renders an optional string (`None` prints as
`"None"`). -/
def pyStr : Option String → String
  | some s => s
  | none => "None"

/-- Python's `str.lower()`, modelled as the characterwise lowercase map
(`String.toLower` does the same but is compiled by well-founded recursion,
which blocks kernel evaluation). -/
def pyLower (s : String) : String := ⟨s.data.map Char.toLower⟩

/-- Python's substring operator `a in b` on strings: the character
sequence of `a` occurs contiguously inside that of `b`. -/
def pyStrIn (a b : String) : Bool :=
  decide (a.data <:+: b.data)

/-- `_shares_vocabulary_with_target`: compares the *prompt* entry's lemma
in `lang` with the candidate entry's lemma in `lang`, lowercased: true on
a substring relationship in either direction, or on an equal 3-letter
prefix when both lemmas are longer than 3 characters. -/
def sharesVocabularyWithTarget (targetEntry candidateEntry : Entry)
    (lang : String) : Bool :=
  match targetEntry.translations.lookup lang,
      candidateEntry.translations.lookup lang with
  | some tl, some cl =>
    let targetLemma := pyLower tl
    let candidateLemma := pyLower cl
    pyStrIn targetLemma candidateLemma || pyStrIn candidateLemma targetLemma ||
      (decide (3 < targetLemma.length) && decide (3 < candidateLemma.length) &&
        decide (targetLemma.data.take 3 = candidateLemma.data.take 3))
  | _, _ => false

/-- `_get_distant_hypernyms`: lemmas (in the target language) of hypernyms
of hypernyms, resolved through `synset_to_entry`. -/
def Gen.getDistantHypernyms (gen : Gen) (entry : Entry) (targetLang : String) :
    Finset String :=
  entry.hypernyms.foldl (fun acc hyperEntry =>
    if hyperEntry.synset_id ≠ "" then
      match gen.synsetToEntry hyperEntry.synset_id with
      | some grandEntry =>
        grandEntry.hypernyms.foldl (fun a gh =>
          match gh.translations.lookup targetLang with
          | some l => insert l a
          | none => a) acc
      | none => acc
    else acc) ∅

/-- `_get_shared_hypernym_synsets`: target-language lemmas of other
entries sharing a direct hypernym with `entry`. -/
def Gen.getSharedHypernymSynsets (gen : Gen) (entry : Entry)
    (targetLang : String) : Finset String :=
  let ourHypernyms : Finset String :=
    entry.hypernyms.foldl
      (fun a h => if h.synset_id ≠ "" then insert h.synset_id a else a) ∅
  gen.data.foldl (fun acc other =>
    if other.synset_id = entry.synset_id then acc
    else if other.hypernyms.any (fun oh => oh.synset_id ∈ ourHypernyms) then
      match other.translations.lookup targetLang with
      | some l => insert l acc
      | none => acc
    else acc) ∅

/-- The sibling loop shared by `_add_recursive_hypernyms` and
`_add_recursive_hyponyms`: walk one level's relation entries, inserting
each unseen truthy synset id and descending through `deeper` when the id
resolves in `synset_to_entry`. -/
def addRecLevel (gen : Gen) (deeper : Entry → Finset String → Finset String) :
    List RelEntry → Finset String → Finset String
  | [], ex => ex
  | h :: hs, ex =>
    let ex' :=
      if h.synset_id ≠ "" ∧ h.synset_id ∉ ex then
        let ex2 := insert h.synset_id ex
        match gen.synsetToEntry h.synset_id with
        | some e' => deeper e' ex2
        | none => ex2
      else ex
    addRecLevel gen deeper hs ex'

/-- `_add_recursive_hypernyms`, reformulated on the remaining depth: one
call processes a hypernym list at `d + 1` remaining levels, recursing one
level deeper through `synset_to_entry` (the Python version checks
`current_depth >= max_depth` at entry, starting from 0 with `max_depth`
3, so three levels are processed). -/
def Gen.addRecursiveHypernyms (gen : Gen) :
    Nat → List RelEntry → Finset String → Finset String
  | 0, _, ex => ex
  | d + 1, l, ex =>
    addRecLevel gen (fun e' ex2 => gen.addRecursiveHypernyms d e'.hypernyms ex2) l ex

/-- `_add_recursive_hyponyms`, same reformulation (`max_depth` 2). -/
def Gen.addRecursiveHyponyms (gen : Gen) :
    Nat → List RelEntry → Finset String → Finset String
  | 0, _, ex => ex
  | d + 1, l, ex =>
    addRecLevel gen (fun e' ex2 => gen.addRecursiveHyponyms d e'.hyponyms ex2) l ex

/-- `_build_semantic_exclusion_set`: self, all direct relations, three
levels of hypernyms, two levels of hyponyms, and every entry sharing a
direct hypernym. -/
def Gen.buildSemanticExclusionSet (gen : Gen) (entry : Entry) : Finset String :=
  let ex0 : Finset String := {entry.synset_id}
  let ex1 := (entry.hypernyms ++ entry.hyponyms ++ entry.meronyms ++
    entry.cohyponyms).foldl (fun a re => insert re.synset_id a) ex0
  let ex2 := gen.addRecursiveHypernyms 3 entry.hypernyms ex1
  let ex3 := gen.addRecursiveHyponyms 2 entry.hyponyms ex2
  let ourHypernyms : Finset String :=
    entry.hypernyms.foldl (fun a h => insert h.synset_id a) ∅
  gen.data.foldl (fun acc other =>
    if other.synset_id = entry.synset_id then acc
    else if other.hypernyms.any (fun oh => oh.synset_id ∈ ourHypernyms) then
      insert other.synset_id acc
    else acc) ex3

/-- The `candidate_words` list built inside `_get_cross_domain_words`:
target-language lemmas of entries outside the exclusion set that share no
vocabulary with the prompt entry. -/
def Gen.crossDomainCandidateWords (gen : Gen) (entry : Entry)
    (targetLang : String) : List String :=
  let excludedSynsets := gen.buildSemanticExclusionSet entry
  gen.data.foldr (fun other acc =>
    if other.synset_id ∈ excludedSynsets then acc
    else if sharesVocabularyWithTarget entry other targetLang then acc
    else match other.translations.lookup targetLang with
      | some l => l :: acc
      | none => acc) []

/-! ## Randomness model

The generator calls `random.sample`, `random.choice` and `random.shuffle`.
These are modelled by an abstract oracle `Rng`; `RngSound` states exactly
the contracts the Python functions guarantee (a sample of `k ≤ len` items
is `k` items from the list, a choice from a nonempty set is a member, a
shuffle is a permutation).  Theorems about "every generated question"
quantify over all sound oracles, hence over all actual runs. -/

structure Rng where
  sampleList : List String → Nat → List String
  choose : Finset String → String
  chooseRel : List RelEntry → Option RelEntry
  shuffleList : List String → List String
  shuffleEntries : List (Entry × List RelEntry) → List (Entry × List RelEntry)

/-- `set(random.sample(list(S), k))`: the set is materialised as its
sorted list (the concrete order is irrelevant: the sample oracle is
arbitrary) and the sampled items are collected back into a set. -/
def Rng.sampleSet (r : Rng) (S : Finset String) (k : Nat) : Finset String :=
  (r.sampleList (S.sort (fun a b => a ≤ b)) k).toFinset

/-- The contracts of Python's `random` helpers. -/
structure RngSound (r : Rng) : Prop where
  sample_length : ∀ l k, k ≤ l.length → (r.sampleList l k).length = k
  sample_subset : ∀ l k, k ≤ l.length → ∀ x ∈ r.sampleList l k, x ∈ l
  choose_mem : ∀ S : Finset String, S.Nonempty → r.choose S ∈ S
  chooseRel_mem : ∀ (l : List RelEntry) (x : RelEntry), r.chooseRel l = some x → x ∈ l
  chooseRel_isSome : ∀ l : List RelEntry, l ≠ [] → (r.chooseRel l).isSome
  shuffle_perm : ∀ l, (r.shuffleList l).Perm l
  shuffleEntries_perm : ∀ l, (r.shuffleEntries l).Perm l

/-! ## Distractor strategies -/

/-- `_get_cross_domain_words`: sample down to `sample_size` when the
candidate list is longer. -/
def Gen.getCrossDomainWords (gen : Gen) (r : Rng) (entry : Entry)
    (targetLang : String) (sampleSize : Nat) : Finset String :=
  let candidateWords := gen.crossDomainCandidateWords entry targetLang
  if sampleSize < candidateWords.length then
    (r.sampleList candidateWords sampleSize).toFinset
  else candidateWords.toFinset

/-- The top-up loop of `_finalize_distractors` (`while len(distractors) <
n_choices - 1`), with fuel `n_choices` — under a sound oracle every
iteration grows the set by one, so the fuel is never exhausted before the
loop's own exit conditions fire. -/
def Gen.finalizeLoop (gen : Gen) (r : Rng) (allCandidates : Finset String)
    (correct : String) : Nat → Finset String → Finset String
  | 0, d => d
  | fuel + 1, d =>
    if d.card < gen.nChoices - 1 then
      let remaining := (allCandidates \ d).erase correct
      if remaining.Nonempty then
        gen.finalizeLoop r allCandidates correct fuel (insert (r.choose remaining) d)
      else d
    else d

/-- `_finalize_distractors`: discard the correct answer, top up from the
remaining candidates, return as a list (`list(distractors)`, materialised
in sorted order — the caller shuffles the options anyway). -/
def Gen.finalizeDistractors (gen : Gen) (r : Rng) (distractors : Finset String)
    (correct : String) (allCandidates : Finset String) : List String :=
  (gen.finalizeLoop r allCandidates correct gen.nChoices
    (distractors.erase correct)).sort (fun a b => a ≤ b)

/-- `_random_cross_domain_distractors` (difficulty 1). -/
def Gen.randomCrossDomainDistractors (gen : Gen) (r : Rng) (correct : String)
    (allCandidates : Finset String) (targetLang : String) (entry : Entry) :
    List String × String :=
  let crossDomainWords := gen.getCrossDomainWords r entry targetLang 50
  let distractors :=
    if gen.nChoices - 1 ≤ crossDomainWords.card then
      r.sampleSet crossDomainWords (gen.nChoices - 1)
    else
      let remainingNeeded := gen.nChoices - 1 - crossDomainWords.card
      let additional :=
        r.sampleSet allCandidates (min remainingNeeded allCandidates.card)
      crossDomainWords ∪ additional
  (gen.finalizeDistractors r distractors correct allCandidates,
    "cross_domain_random")

/-- `_distant_hypernym_distractors` (difficulty 2). -/
def Gen.distantHypernymDistractors (gen : Gen) (r : Rng) (correct : String)
    (allCandidates : Finset String) (targetLang : String) (entry : Entry) :
    List String × String :=
  let distantHypernyms := gen.getDistantHypernyms entry targetLang
  let distractors :=
    if gen.nChoices - 1 ≤ distantHypernyms.card then
      r.sampleSet distantHypernyms (gen.nChoices - 1)
    else
      let crossDomain := gen.getCrossDomainWords r entry targetLang 20
      let available := distantHypernyms ∪ crossDomain
      if gen.nChoices - 1 ≤ available.card then
        r.sampleSet available (gen.nChoices - 1)
      else
        let remaining := gen.nChoices - 1 - available.card
        let additional :=
          r.sampleSet allCandidates (min remaining allCandidates.card)
        available ∪ additional
  (gen.finalizeDistractors r distractors correct allCandidates,
    "distant_hypernyms")

/-- `_direct_relation_distractors` (difficulty 3). -/
def Gen.directRelationDistractors (gen : Gen) (r : Rng) (correct : String)
    (allCandidates : Finset String) (targetLang : String) (entry : Entry) :
    List String × String :=
  let directRelations :=
    relLemmas entry.hypernyms targetLang ∪ relLemmas entry.hyponyms targetLang
  let distractors :=
    if gen.nChoices - 1 ≤ directRelations.card then
      r.sampleSet directRelations (gen.nChoices - 1)
    else
      let distant := gen.getDistantHypernyms entry targetLang
      let available := directRelations ∪ distant
      if gen.nChoices - 1 ≤ available.card then
        r.sampleSet available (gen.nChoices - 1)
      else
        let remaining := gen.nChoices - 1 - available.card
        let additional :=
          r.sampleSet allCandidates (min remaining allCandidates.card)
        available ∪ additional
  (gen.finalizeDistractors r distractors correct allCandidates,
    "direct_relations")

/-- `_cohyponym_distractors` (difficulty 4). -/
def Gen.cohyponymDistractors (gen : Gen) (r : Rng) (correct : String)
    (allCandidates : Finset String) (targetLang : String) (entry : Entry) :
    List String × String :=
  let cohyponyms := relLemmas entry.cohyponyms targetLang
  let distractors :=
    if gen.nChoices - 1 ≤ cohyponyms.card then
      r.sampleSet cohyponyms (gen.nChoices - 1)
    else
      let sharedHypernymWords := gen.getSharedHypernymSynsets entry targetLang
      let available := cohyponyms ∪ sharedHypernymWords
      if gen.nChoices - 1 ≤ available.card then
        r.sampleSet available (gen.nChoices - 1)
      else
        let directRelations := relLemmas entry.hypernyms targetLang
        let available2 := available ∪ directRelations
        if gen.nChoices - 1 ≤ available2.card then
          r.sampleSet available2 (gen.nChoices - 1)
        else
          let remaining := gen.nChoices - 1 - available2.card
          let additional :=
            r.sampleSet allCandidates (min remaining allCandidates.card)
          available2 ∪ additional
  (gen.finalizeDistractors r distractors correct allCandidates, "cohyponyms")

/-- `_close_relation_distractors` (difficulty 5). -/
def Gen.closeRelationDistractors (gen : Gen) (r : Rng) (correct : String)
    (allCandidates : Finset String) (targetLang : String) (entry : Entry) :
    List String × String :=
  let closeRelations := relLemmas entry.meronyms targetLang ∪
    gen.getSharedHypernymSynsets entry targetLang
  let distractors :=
    if gen.nChoices - 1 ≤ closeRelations.card then
      r.sampleSet closeRelations (gen.nChoices - 1)
    else
      let cohyponyms := relLemmas entry.cohyponyms targetLang
      let available := closeRelations ∪ cohyponyms
      if gen.nChoices - 1 ≤ available.card then
        r.sampleSet available (gen.nChoices - 1)
      else
        let remaining := gen.nChoices - 1 - available.card
        let additional :=
          r.sampleSet allCandidates (min remaining allCandidates.card)
        available ∪ additional
  (gen.finalizeDistractors r distractors correct allCandidates,
    "close_relations")

/-- `_generate_distractors`: dispatch on the difficulty value, falling
back to the cross-domain strategy for anything unexpected. -/
def Gen.generateDistractors (gen : Gen) (r : Rng) (correct : String)
    (allCandidates : Finset String) (targetLang : String) (entry : Entry)
    (difficulty : Nat) : List String × String :=
  if difficulty = 1 then
    gen.randomCrossDomainDistractors r correct allCandidates targetLang entry
  else if difficulty = 2 then
    gen.distantHypernymDistractors r correct allCandidates targetLang entry
  else if difficulty = 3 then
    gen.directRelationDistractors r correct allCandidates targetLang entry
  else if difficulty = 4 then
    gen.cohyponymDistractors r correct allCandidates targetLang entry
  else if difficulty = 5 then
    gen.closeRelationDistractors r correct allCandidates targetLang entry
  else
    gen.randomCrossDomainDistractors r correct allCandidates targetLang entry

/-! ## Question assembly -/

/-- `QuestionMetadata`. -/
structure QuestionMetadata where
  resource_pair : String
  prompt_lang : String
  from_lang : String
  to_lang : String
  difficulty : Nat
  distractor_type : String
  generation_time : String
  synset_id : String
  multilingual_mode : String
  deriving Repr, DecidableEq

/-- `Question`. -/
structure Question where
  id : String
  prompt : String
  options : List String
  answer_index : Nat
  metadata : QuestionMetadata
  deriving Repr, DecidableEq

/-- `_create_prompt_text`. -/
def createPromptText (taskType fromCode toCode promptWord : String) :
    String × String :=
  let fromLangName := (getLangInfo fromCode).1
  let toLangName := (getLangInfo toCode).1
  let relationPhrase :=
    if taskType = "hypernymy" then "a hypernym (broader category)"
    else if taskType = "meronymy" then "a meronym (part, component, or member)"
    else "a semantic relation"
  ("Which of the following is " ++ relationPhrase ++ " of the " ++
      pyStr fromLangName ++ " word \"" ++ promptWord ++
      "\"? (Options in " ++ pyStr toLangName ++ ".)",
    "en")

/-- `_create_single_question`.  The enclosing `try/except` returns `None`
on any failure; the failure points (missing translation, empty related
list) are the explicit `none` branches.  All `random.sample` calls are
guarded by their callers and cannot raise. -/
def Gen.createSingleQuestion (gen : Gen) (r : Rng) (entry : Entry)
    (validRelatedEntries : List RelEntry)
    (fromCode toCode taskType relationField : String) (difficulty : Nat)
    (qid : Nat) (generationTime multilingualMode : String) : Option Question :=
  match entry.translations.lookup fromCode with
  | none => none
  | some promptWord =>
    match r.chooseRel validRelatedEntries with
    | none => none
    | some relationEntry =>
      match relationEntry.translations.lookup toCode with
      | none => none
      | some correctLemma =>
        let allCandidates := (gen.lemmaLookup toCode).erase correctLemma
        if allCandidates.card < gen.minDistractors then none
        else
          let dd := gen.generateDistractors r correctLemma allCandidates
            toCode entry difficulty
          let options := r.shuffleList (dd.1 ++ [correctLemma])
          let answerIndex := options.indexOf correctLemma
          let pp := createPromptText taskType fromCode toCode promptWord
          let resourcePair := pyStr (getLangInfo fromCode).2 ++ "_to_" ++
            pyStr (getLangInfo toCode).2
          some
            { id := taskType ++ "_" ++ toString qid ++ "_" ++ fromCode ++
                "_to_" ++ toCode ++ "_diff" ++ toString difficulty
              prompt := pp.1
              options := options
              answer_index := answerIndex
              metadata :=
                { resource_pair := resourcePair
                  prompt_lang := pp.2
                  from_lang := fromCode
                  to_lang := toCode
                  difficulty := difficulty
                  distractor_type := dd.2
                  generation_time := generationTime
                  synset_id := entry.synset_id
                  multilingual_mode := multilingualMode } }

/-! ## Balanced generation (`_generate_balanced_questions`) -/

/-- Appending to a `defaultdict(list)` entry, preserving first-insertion
key order (`valid_entries[lang_pair].append(...)`). -/
def appendEntry (m : List ((String × String) × List (Entry × List RelEntry)))
    (key : String × String) (val : Entry × List RelEntry) :
    List ((String × String) × List (Entry × List RelEntry)) :=
  match m with
  | [] => [(key, [val])]
  | (k, vs) :: rest =>
    if k = key then (k, vs ++ [val]) :: rest
    else (k, vs) :: appendEntry rest key val

/-- `_collect_valid_entries`.  The `lang_pair` dict key
`f"{from_code}_to_{to_code}"` is modelled as the code pair itself (the
balanced generator splits the string back on `"_to_"`). -/
def Gen.collectValidEntries (gen : Gen) (relationField : String)
    (fromLanguages targetLanguages : List String) :
    List ((String × String) × List (Entry × List RelEntry)) :=
  gen.data.foldl (fun m entry =>
    if (entry.relationsOf relationField).isEmpty then m
    else
      fromLanguages.foldl (fun m fromCode =>
        match entry.translations.lookup fromCode with
        | none => m
        | some _ =>
          let relatedEntries := (entry.relationsOf relationField).filter
            (fun re => targetLanguages.any
              (fun tc => (re.translations.lookup tc).isSome))
          if relatedEntries.isEmpty then m
          else
            targetLanguages.foldl (fun m toCode =>
              if fromCode = toCode ∧ fromCode ≠ "en" then m
              else
                let validRelatedEntries := relatedEntries.filter
                  (fun re => (re.translations.lookup toCode).isSome)
                if validRelatedEntries.isEmpty then m
                else appendEntry m (fromCode, toCode) (entry, validRelatedEntries))
              m) m) []

/-- The `while questions_generated < target_for_difficulty and entry_idx <
len(entries)` loop for one difficulty tier: walk the (shuffled) entries,
skip any whose prompt word was already used in this language pair's batch,
and append each successfully created question, recording its prompt word
as used.  Returns the questions (in order) with the updated used-word set
and question-id counter. -/
def Gen.genLoop (gen : Gen) (r : Rng)
    (fromCode toCode taskType relationField : String) (difficulty : Nat)
    (generationTime multilingualMode : String) :
    List (Entry × List RelEntry) → Nat → Finset String → Nat →
    List Question × Finset String × Nat
  | [], _, used, qid => ([], used, qid)
  | _ :: _, 0, used, qid => ([], used, qid)
  | (entry, validRel) :: rest, needed + 1, used, qid =>
    let sourceWord := (entry.translations.lookup fromCode).getD ""
    if sourceWord ∈ used then
      gen.genLoop r fromCode toCode taskType relationField difficulty
        generationTime multilingualMode rest (needed + 1) used qid
    else
      match gen.createSingleQuestion r entry validRel fromCode toCode taskType
          relationField difficulty qid generationTime multilingualMode with
      | some q =>
        let res := gen.genLoop r fromCode toCode taskType relationField
          difficulty generationTime multilingualMode rest needed
          (insert sourceWord used) (qid + 1)
        (q :: res.1, res.2)
      | none =>
        gen.genLoop r fromCode toCode taskType relationField difficulty
          generationTime multilingualMode rest (needed + 1) used qid

/-- The `for difficulty_enum in DifficultyLevel` loop: each tier targets
`target // 5` questions plus one more when its value is at most
`target % 5`, threading the used-word set and question-id counter. -/
def Gen.genForDifficulties (gen : Gen) (r : Rng)
    (fromCode toCode taskType relationField : String)
    (generationTime multilingualMode : String)
    (entries : List (Entry × List RelEntry)) (qpd rem : Nat) :
    List Nat → Finset String → Nat → List Question × Finset String × Nat
  | [], used, qid => ([], used, qid)
  | d :: ds, used, qid =>
    let targetFor := qpd + (if d ≤ rem then 1 else 0)
    let res := gen.genLoop r fromCode toCode taskType relationField d
      generationTime multilingualMode entries targetFor used qid
    let res2 := gen.genForDifficulties r fromCode toCode taskType relationField
      generationTime multilingualMode entries qpd rem ds res.2.1 res.2.2
    (res.1 ++ res2.1, res2.2)

/-- One language pair's batch: shuffle its entries, then run the five
difficulty tiers with a fresh used-word set.  Returns the pair's questions
and the advanced question-id counter. -/
def Gen.questionsForPair (gen : Gen) (r : Rng) (langPair : String × String)
    (entries : List (Entry × List RelEntry))
    (taskType relationField : String) (targetQuestionsPerPair : Nat)
    (generationTime multilingualMode : String) (qid : Nat) :
    List Question × Nat :=
  let shuffled := r.shuffleEntries entries
  let res := gen.genForDifficulties r langPair.1 langPair.2 taskType
    relationField generationTime multilingualMode shuffled
    (targetQuestionsPerPair / 5) (targetQuestionsPerPair % 5)
    [1, 2, 3, 4, 5] ∅ qid
  (res.1, res.2.2)

/-- `_generate_balanced_questions`: all language pairs in order, one
global question-id counter. -/
def Gen.generateBalancedQuestions (gen : Gen) (r : Rng)
    (validEntries : List ((String × String) × List (Entry × List RelEntry)))
    (taskType relationField : String) (targetQuestionsPerPair : Nat)
    (generationTime multilingualMode : String) : List Question :=
  (validEntries.foldl (fun acc pe =>
    let res := gen.questionsForPair r pe.1 pe.2 taskType relationField
      targetQuestionsPerPair generationTime multilingualMode acc.2
    (acc.1 ++ res.1, res.2)) (([] : List Question), 0)).1

/-! ## Distractor-set size and membership lemmas -/

theorem sampleSet_card_le (r : Rng) (hs : RngSound r) (S : Finset String)
    (k : Nat) (hk : k ≤ S.card) : (r.sampleSet S k).card ≤ k := by
  rw [Rng.sampleSet]
  refine le_trans (List.toFinset_card_le _) ?_
  rw [hs.sample_length _ k (by rw [Finset.length_sort]; exact hk)]

theorem sampleSet_subset (r : Rng) (hs : RngSound r) (S : Finset String)
    (k : Nat) (hk : k ≤ S.card) : r.sampleSet S k ⊆ S := by
  intro x hx
  rw [Rng.sampleSet, List.mem_toFinset] at hx
  have hmem := hs.sample_subset _ k (by rw [Finset.length_sort]; exact hk) x hx
  exact (Finset.mem_sort _).mp hmem

/-- The final fallback of every strategy — topping up a too-small pool `A`
with `min(remaining, |allCandidates|)` sampled candidates — never exceeds
`n_choices - 1` items. -/
theorem union_additional_card (r : Rng) (hs : RngSound r)
    (A allCand : Finset String) (n1 : Nat) (hA : A.card < n1) :
    (A ∪ r.sampleSet allCand (min (n1 - A.card) allCand.card)).card ≤ n1 := by
  have h1 : (r.sampleSet allCand (min (n1 - A.card) allCand.card)).card ≤
      min (n1 - A.card) allCand.card :=
    sampleSet_card_le r hs _ _ (min_le_right _ _)
  have h2 := Finset.card_union_le A
    (r.sampleSet allCand (min (n1 - A.card) allCand.card))
  have h3 : min (n1 - A.card) allCand.card ≤ n1 - A.card := min_le_left _ _
  omega

/-- The finalize loop reaches exactly `n_choices - 1` distractors and never
(re-)admits the correct answer, under a sound oracle, enough candidates
and enough fuel. -/
theorem finalizeLoop_spec (gen : Gen) (r : Rng) (hs : RngSound r)
    (allCand : Finset String) (correct : String)
    (hA : gen.nChoices - 1 ≤ allCand.card) (hcor : correct ∉ allCand) :
    ∀ (fuel : Nat) (d : Finset String), correct ∉ d →
      d.card ≤ gen.nChoices - 1 → gen.nChoices - 1 - d.card ≤ fuel →
      (gen.finalizeLoop r allCand correct fuel d).card = gen.nChoices - 1 ∧
        correct ∉ gen.finalizeLoop r allCand correct fuel d := by
  intro fuel
  induction fuel with
  | zero =>
    intro d hc hle hfuel
    rw [Gen.finalizeLoop]
    exact ⟨by omega, hc⟩
  | succ n ih =>
    intro d hc hle hfuel
    rw [Gen.finalizeLoop]
    by_cases hcard : d.card < gen.nChoices - 1
    · rw [if_pos hcard]
      have hsd : allCand.card - d.card ≤ (allCand \ d).card :=
        Finset.le_card_sdiff d allCand
      have hcne : correct ∉ allCand \ d := fun hmem =>
        hcor (Finset.mem_sdiff.mp hmem).1
      have herase : (allCand \ d).erase correct = allCand \ d :=
        Finset.erase_eq_of_not_mem hcne
      have hrem : ((allCand \ d).erase correct).Nonempty := by
        rw [herase]
        exact Finset.card_pos.mp (by omega)
      rw [if_pos hrem]
      have hchoose := hs.choose_mem _ hrem
      have hchooseA : r.choose ((allCand \ d).erase correct) ∈ allCand \ d :=
        Finset.mem_of_mem_erase hchoose
      have hcni : r.choose ((allCand \ d).erase correct) ∉ d :=
        fun hd => (Finset.mem_sdiff.mp hchooseA).2 hd
      have hcnc : r.choose ((allCand \ d).erase correct) ≠ correct :=
        (Finset.mem_erase.mp hchoose).1
      refine ih _ ?_ ?_ ?_
      · intro hmem
        rcases Finset.mem_insert.mp hmem with heq | hd
        · exact hcnc heq.symm
        · exact hc hd
      · rw [Finset.card_insert_of_not_mem hcni]; omega
      · rw [Finset.card_insert_of_not_mem hcni]; omega
    · rw [if_neg hcard]
      exact ⟨by omega, hc⟩

/-- The finalize loop never admits the correct answer (no size hypotheses
needed: the `remaining` pool always erases it). -/
theorem finalizeLoop_not_mem (gen : Gen) (r : Rng) (hs : RngSound r)
    (allCand : Finset String) (correct : String) :
    ∀ (fuel : Nat) (d : Finset String), correct ∉ d →
      correct ∉ gen.finalizeLoop r allCand correct fuel d := by
  intro fuel
  induction fuel with
  | zero => intro d hc; rw [Gen.finalizeLoop]; exact hc
  | succ n ih =>
    intro d hc
    rw [Gen.finalizeLoop]
    by_cases hcard : d.card < gen.nChoices - 1
    · rw [if_pos hcard]
      by_cases hrem : ((allCand \ d).erase correct).Nonempty
      · rw [if_pos hrem]
        refine ih _ ?_
        intro hmem
        rcases Finset.mem_insert.mp hmem with heq | hd
        · exact (Finset.mem_erase.mp (hs.choose_mem _ hrem)).1 heq.symm
        · exact hc hd
      · rw [if_neg hrem]; exact hc
    · rw [if_neg hcard]; exact hc

/-- `_finalize_distractors` always yields a duplicate-free list that
excludes the correct answer. -/
theorem finalizeDistractors_not_mem (gen : Gen) (r : Rng) (hs : RngSound r)
    (distractors allCand : Finset String) (correct : String) :
    correct ∉ gen.finalizeDistractors r distractors correct allCand ∧
      (gen.finalizeDistractors r distractors correct allCand).Nodup := by
  rw [Gen.finalizeDistractors]
  refine ⟨?_, Finset.sort_nodup _ _⟩
  intro hmem
  exact finalizeLoop_not_mem gen r hs allCand correct gen.nChoices
    (distractors.erase correct) (Finset.not_mem_erase _ _)
    ((Finset.mem_sort _).mp hmem)

/-- `_finalize_distractors` yields exactly `n_choices - 1` distractors
when enough candidates exist and the incoming set is not oversized. -/
theorem finalizeDistractors_length (gen : Gen) (r : Rng) (hs : RngSound r)
    (distractors allCand : Finset String) (correct : String)
    (hA : gen.nChoices - 1 ≤ allCand.card) (hcor : correct ∉ allCand)
    (hd : distractors.card ≤ gen.nChoices - 1) :
    (gen.finalizeDistractors r distractors correct allCand).length =
      gen.nChoices - 1 := by
  have he1 : correct ∉ distractors.erase correct := Finset.not_mem_erase _ _
  have he2 : (distractors.erase correct).card ≤ gen.nChoices - 1 :=
    le_trans (Finset.card_erase_le) hd
  have hfuel : gen.nChoices - 1 - (distractors.erase correct).card ≤
      gen.nChoices := by omega
  obtain ⟨hcard, -⟩ := finalizeLoop_spec gen r hs allCand correct hA hcor
    gen.nChoices (distractors.erase correct) he1 he2 hfuel
  rw [Gen.finalizeDistractors, Finset.length_sort]
  exact hcard

theorem randomCrossDomainDistractors_length (gen : Gen) (r : Rng)
    (hs : RngSound r) (correct : String) (allCand : Finset String)
    (lang : String) (entry : Entry) (hA : gen.nChoices - 1 ≤ allCand.card)
    (hcor : correct ∉ allCand) :
    (gen.randomCrossDomainDistractors r correct allCand lang entry).1.length =
      gen.nChoices - 1 := by
  simp only [Gen.randomCrossDomainDistractors]
  refine finalizeDistractors_length gen r hs _ allCand correct hA hcor ?_
  split
  · rename_i hge
    exact sampleSet_card_le r hs _ _ hge
  · rename_i hlt
    exact union_additional_card r hs _ allCand _ (by omega)

theorem distantHypernymDistractors_length (gen : Gen) (r : Rng)
    (hs : RngSound r) (correct : String) (allCand : Finset String)
    (lang : String) (entry : Entry) (hA : gen.nChoices - 1 ≤ allCand.card)
    (hcor : correct ∉ allCand) :
    (gen.distantHypernymDistractors r correct allCand lang entry).1.length =
      gen.nChoices - 1 := by
  simp only [Gen.distantHypernymDistractors]
  refine finalizeDistractors_length gen r hs _ allCand correct hA hcor ?_
  split
  · rename_i hge
    exact sampleSet_card_le r hs _ _ hge
  · split
    · rename_i hge2
      exact sampleSet_card_le r hs _ _ hge2
    · rename_i hlt hlt2
      exact union_additional_card r hs _ allCand _ (by omega)

theorem directRelationDistractors_length (gen : Gen) (r : Rng)
    (hs : RngSound r) (correct : String) (allCand : Finset String)
    (lang : String) (entry : Entry) (hA : gen.nChoices - 1 ≤ allCand.card)
    (hcor : correct ∉ allCand) :
    (gen.directRelationDistractors r correct allCand lang entry).1.length =
      gen.nChoices - 1 := by
  simp only [Gen.directRelationDistractors]
  refine finalizeDistractors_length gen r hs _ allCand correct hA hcor ?_
  split
  · rename_i hge
    exact sampleSet_card_le r hs _ _ hge
  · split
    · rename_i hge2
      exact sampleSet_card_le r hs _ _ hge2
    · rename_i hlt hlt2
      exact union_additional_card r hs _ allCand _ (by omega)

theorem cohyponymDistractors_length (gen : Gen) (r : Rng)
    (hs : RngSound r) (correct : String) (allCand : Finset String)
    (lang : String) (entry : Entry) (hA : gen.nChoices - 1 ≤ allCand.card)
    (hcor : correct ∉ allCand) :
    (gen.cohyponymDistractors r correct allCand lang entry).1.length =
      gen.nChoices - 1 := by
  simp only [Gen.cohyponymDistractors]
  refine finalizeDistractors_length gen r hs _ allCand correct hA hcor ?_
  split
  · rename_i hge
    exact sampleSet_card_le r hs _ _ hge
  · split
    · rename_i hge2
      exact sampleSet_card_le r hs _ _ hge2
    · split
      · rename_i hge3
        exact sampleSet_card_le r hs _ _ hge3
      · rename_i hlt hlt2 hlt3
        exact union_additional_card r hs _ allCand _ (by omega)

theorem closeRelationDistractors_length (gen : Gen) (r : Rng)
    (hs : RngSound r) (correct : String) (allCand : Finset String)
    (lang : String) (entry : Entry) (hA : gen.nChoices - 1 ≤ allCand.card)
    (hcor : correct ∉ allCand) :
    (gen.closeRelationDistractors r correct allCand lang entry).1.length =
      gen.nChoices - 1 := by
  simp only [Gen.closeRelationDistractors]
  refine finalizeDistractors_length gen r hs _ allCand correct hA hcor ?_
  split
  · rename_i hge
    exact sampleSet_card_le r hs _ _ hge
  · split
    · rename_i hge2
      exact sampleSet_card_le r hs _ _ hge2
    · rename_i hlt hlt2
      exact union_additional_card r hs _ allCand _ (by omega)

/-- Every strategy yields exactly `n_choices - 1` distractors given enough
candidates. -/
theorem generateDistractors_length (gen : Gen) (r : Rng) (hs : RngSound r)
    (correct : String) (allCand : Finset String) (lang : String)
    (entry : Entry) (difficulty : Nat) (hA : gen.nChoices - 1 ≤ allCand.card)
    (hcor : correct ∉ allCand) :
    (gen.generateDistractors r correct allCand lang entry difficulty).1.length =
      gen.nChoices - 1 := by
  rw [Gen.generateDistractors]
  split
  · exact randomCrossDomainDistractors_length gen r hs correct allCand lang entry hA hcor
  · split
    · exact distantHypernymDistractors_length gen r hs correct allCand lang entry hA hcor
    · split
      · exact directRelationDistractors_length gen r hs correct allCand lang entry hA hcor
      · split
        · exact cohyponymDistractors_length gen r hs correct allCand lang entry hA hcor
        · split
          · exact closeRelationDistractors_length gen r hs correct allCand lang entry hA hcor
          · exact randomCrossDomainDistractors_length gen r hs correct allCand lang entry hA hcor

/-- Every strategy's distractor list excludes the correct answer and is
duplicate-free (no size hypotheses: this comes from
`_finalize_distractors` alone). -/
theorem generateDistractors_not_mem (gen : Gen) (r : Rng) (hs : RngSound r)
    (correct : String) (allCand : Finset String) (lang : String)
    (entry : Entry) (difficulty : Nat) :
    correct ∉ (gen.generateDistractors r correct allCand lang entry difficulty).1 ∧
      (gen.generateDistractors r correct allCand lang entry difficulty).1.Nodup := by
  rw [Gen.generateDistractors]
  split
  · simp only [Gen.randomCrossDomainDistractors]
    exact finalizeDistractors_not_mem gen r hs _ allCand correct
  · split
    · simp only [Gen.distantHypernymDistractors]
      exact finalizeDistractors_not_mem gen r hs _ allCand correct
    · split
      · simp only [Gen.directRelationDistractors]
        exact finalizeDistractors_not_mem gen r hs _ allCand correct
      · split
        · simp only [Gen.cohyponymDistractors]
          exact finalizeDistractors_not_mem gen r hs _ allCand correct
        · split
          · simp only [Gen.closeRelationDistractors]
            exact finalizeDistractors_not_mem gen r hs _ allCand correct
          · simp only [Gen.randomCrossDomainDistractors]
            exact finalizeDistractors_not_mem gen r hs _ allCand correct

/-! ## C1 and C2: question record invariants -/

/-- C2: in every generated question the correct label occurs exactly once
among the options — the distractor set is a set, the correct label is
discarded from it before finalization, and the top-up pool excludes it. -/
theorem C2_correct_label_once (gen : Gen) (r : Rng) (hs : RngSound r)
    (entry : Entry) (validRelated : List RelEntry)
    (fromCode toCode taskType relationField : String) (difficulty qid : Nat)
    (generationTime multilingualMode : String) (q : Question)
    (hq : gen.createSingleQuestion r entry validRelated fromCode toCode taskType
      relationField difficulty qid generationTime multilingualMode = some q) :
    ∃ relationEntry correctLemma,
      r.chooseRel validRelated = some relationEntry ∧
      relationEntry.translations.lookup toCode = some correctLemma ∧
      q.options.count correctLemma = 1 := by
  rw [Gen.createSingleQuestion] at hq
  cases hpw : entry.translations.lookup fromCode with
  | none => simp only [hpw] at hq; exact Option.noConfusion hq
  | some promptWord =>
  simp only [hpw] at hq
  cases hre : r.chooseRel validRelated with
  | none => simp only [hre] at hq; exact Option.noConfusion hq
  | some relationEntry =>
  simp only [hre] at hq
  cases hcl : relationEntry.translations.lookup toCode with
  | none => simp only [hcl] at hq; exact Option.noConfusion hq
  | some correctLemma =>
  simp only [hcl] at hq
  by_cases hguard :
      ((gen.lemmaLookup toCode).erase correctLemma).card < gen.minDistractors
  · rw [if_pos hguard] at hq; exact Option.noConfusion hq
  · rw [if_neg hguard] at hq
    refine ⟨relationEntry, correctLemma, rfl, hcl, ?_⟩
    have hopts : q.options = r.shuffleList
        ((gen.generateDistractors r correctLemma
          ((gen.lemmaLookup toCode).erase correctLemma) toCode entry
          difficulty).1 ++ [correctLemma]) := by
      rw [← Option.some.inj hq]
    rw [hopts, (hs.shuffle_perm _).count_eq, List.count_append]
    rw [List.count_eq_zero.mpr
      (generateDistractors_not_mem gen r hs correctLemma _ toCode entry difficulty).1]
    simp

/-- C1: every generated question has exactly `n_choices` options (with the
default configuration `n_choices = 4`, `min_distractors = 3`), a valid
answer index, and the option at the answer index is the selected correct
label; the in-function guard `len(all_candidates) >= min_distractors`
provides the candidates the finalizer needs. -/
theorem C1_question_shape (gen : Gen) (r : Rng) (hs : RngSound r)
    (hn : gen.nChoices = 4) (hm : gen.minDistractors = 3)
    (entry : Entry) (validRelated : List RelEntry)
    (fromCode toCode taskType relationField : String) (difficulty qid : Nat)
    (generationTime multilingualMode : String) (q : Question)
    (hq : gen.createSingleQuestion r entry validRelated fromCode toCode taskType
      relationField difficulty qid generationTime multilingualMode = some q) :
    q.options.length = gen.nChoices ∧ q.answer_index < gen.nChoices ∧
    ∃ relationEntry correctLemma,
      r.chooseRel validRelated = some relationEntry ∧
      relationEntry.translations.lookup toCode = some correctLemma ∧
      q.options.getD q.answer_index "" = correctLemma := by
  rw [Gen.createSingleQuestion] at hq
  cases hpw : entry.translations.lookup fromCode with
  | none => simp only [hpw] at hq; exact Option.noConfusion hq
  | some promptWord =>
  simp only [hpw] at hq
  cases hre : r.chooseRel validRelated with
  | none => simp only [hre] at hq; exact Option.noConfusion hq
  | some relationEntry =>
  simp only [hre] at hq
  cases hcl : relationEntry.translations.lookup toCode with
  | none => simp only [hcl] at hq; exact Option.noConfusion hq
  | some correctLemma =>
  simp only [hcl] at hq
  by_cases hguard :
      ((gen.lemmaLookup toCode).erase correctLemma).card < gen.minDistractors
  · rw [if_pos hguard] at hq; exact Option.noConfusion hq
  · rw [if_neg hguard] at hq
    have hA : gen.nChoices - 1 ≤
        ((gen.lemmaLookup toCode).erase correctLemma).card := by
      rw [hn]; rw [hm] at hguard; omega
    have hcor : correctLemma ∉ (gen.lemmaLookup toCode).erase correctLemma :=
      Finset.not_mem_erase _ _
    have hlen := generateDistractors_length gen r hs correctLemma
      ((gen.lemmaLookup toCode).erase correctLemma) toCode entry difficulty hA hcor
    have hopts : q.options = r.shuffleList
        ((gen.generateDistractors r correctLemma
          ((gen.lemmaLookup toCode).erase correctLemma) toCode entry
          difficulty).1 ++ [correctLemma]) := by
      rw [← Option.some.inj hq]
    have hperm := hs.shuffle_perm
      ((gen.generateDistractors r correctLemma
        ((gen.lemmaLookup toCode).erase correctLemma) toCode entry
        difficulty).1 ++ [correctLemma])
    have hlenopts : q.options.length = gen.nChoices := by
      rw [hopts, hperm.length_eq, List.length_append, hlen]
      rw [hn]; rfl
    have hmemc : correctLemma ∈ q.options := by
      rw [hopts]
      exact hperm.mem_iff.mpr (by simp)
    have hidx : q.answer_index = q.options.indexOf correctLemma := by
      rw [← Option.some.inj hq]
    refine ⟨hlenopts, ?_, relationEntry, correctLemma, rfl, hcl, ?_⟩
    · rw [hidx, ← hlenopts]
      exact List.indexOf_lt_length.mpr hmemc
    · rw [hidx, List.getD_eq_getElem _ _ (List.indexOf_lt_length.mpr hmemc)]
      exact List.getElem_indexOf (List.indexOf_lt_length.mpr hmemc)

/-! ## A concrete sound oracle and witness data -/

/-- A deterministic oracle satisfying every `random` contract: sampling
takes a prefix, choosing takes the least element, shuffling is the
identity permutation. -/
def canonicalRng : Rng where
  sampleList := fun l k => l.take k
  choose := fun S => (S.sort (fun a b => a ≤ b)).headI
  chooseRel := fun l => l.head?
  shuffleList := fun l => l
  shuffleEntries := fun l => l

theorem canonicalRng_sound : RngSound canonicalRng := by
  refine ⟨?_, ?_, ?_, ?_, ?_, ?_, ?_⟩
  · intro l k hk
    simp only [canonicalRng, List.length_take]
    omega
  · intro l k _ x hx
    exact List.take_subset _ _ hx
  · intro S hS
    show (S.sort (fun a b => a ≤ b)).headI ∈ S
    have hlen : 0 < (S.sort (fun a b => a ≤ b)).length := by
      rw [Finset.length_sort]
      exact Finset.card_pos.mpr hS
    cases hsort : S.sort (fun a b => a ≤ b) with
    | nil => rw [hsort] at hlen; simp at hlen
    | cons h t =>
      have hmem : h ∈ S.sort (fun a b => a ≤ b) := by
        rw [hsort]; exact List.mem_cons_self _ _
      exact (Finset.mem_sort _).mp hmem
  · intro l x hx
    cases l with
    | nil => exact Option.noConfusion hx
    | cons h t =>
      obtain rfl : h = x := Option.some.inj hx
      exact List.mem_cons_self _ _
  · intro l hl
    cases l with
    | nil => exact absurd rfl hl
    | cons h t => rfl
  · intro l; exact List.Perm.refl l
  · intro l; exact List.Perm.refl l

/-- Witness data: a prompt entry (`dog`/`Hund`) with one hypernym
(`animal`/`Tier`) and four unrelated entries supplying German candidate
lemmas. -/
def relW : RelEntry := ⟨"s2", [("en", "animal"), ("de", "Tier")]⟩

def entryW : Entry := ⟨"s1", [("en", "dog"), ("de", "Hund")], [relW], [], [], []⟩

def entryW2 : Entry := ⟨"s3", [("de", "Haus")], [], [], [], []⟩

def entryW3 : Entry := ⟨"s4", [("de", "Baum")], [], [], [], []⟩

def entryW4 : Entry := ⟨"s5", [("de", "Auto")], [], [], [], []⟩

def entryW5 : Entry := ⟨"s6", [("de", "Wasser")], [], [], [], []⟩

def genW : Gen := ⟨[entryW, entryW2, entryW3, entryW4, entryW5], 3, 4⟩

def qDefault : Question := ⟨"", "", [], 0, ⟨"", "", "", "", 0, "", "", "", ""⟩⟩

/-- The concrete question generated from the witness data at difficulty 1. -/
def qC1 : Question :=
  (genW.createSingleQuestion canonicalRng entryW [relW] "en" "de" "hypernymy"
    "hypernyms" 1 0 "t0" "all").getD qDefault

/-- The concrete question generated from the witness data at difficulty 4. -/
def qC2 : Question :=
  (genW.createSingleQuestion canonicalRng entryW [relW] "en" "de" "hypernymy"
    "hypernyms" 4 0 "t0" "all").getD qDefault

/-- Witness for `C1_question_shape` at the concrete witness data. -/
theorem C1_question_shape_witness :
    qC1.options.length = genW.nChoices ∧ qC1.answer_index < genW.nChoices ∧
    ∃ relationEntry correctLemma,
      canonicalRng.chooseRel [relW] = some relationEntry ∧
      relationEntry.translations.lookup "de" = some correctLemma ∧
      qC1.options.getD qC1.answer_index "" = correctLemma :=
  C1_question_shape genW canonicalRng canonicalRng_sound rfl rfl entryW [relW]
    "en" "de" "hypernymy" "hypernyms" 1 0 "t0" "all" qC1 (by rfl)

/-- Witness for `C2_correct_label_once` at the concrete witness data. -/
theorem C2_correct_label_once_witness :
    ∃ relationEntry correctLemma,
      canonicalRng.chooseRel [relW] = some relationEntry ∧
      relationEntry.translations.lookup "de" = some correctLemma ∧
      qC2.options.count correctLemma = 1 :=
  C2_correct_label_once genW canonicalRng canonicalRng_sound entryW [relW]
    "en" "de" "hypernymy" "hypernyms" 4 0 "t0" "all" qC2 (by rfl)

/-! ## C4: tier-1 cross-domain exclusion -/

/-- Every word collected by the cross-domain candidate fold comes from an
entry outside the exclusion set whose lemma shares no vocabulary with the
prompt entry. -/
theorem crossDomainFold_mem (entry : Entry) (lang : String) (ex : Finset String) :
    ∀ (l : List Entry) (w : String),
      w ∈ l.foldr (fun other acc =>
        if other.synset_id ∈ ex then acc
        else if sharesVocabularyWithTarget entry other lang then acc
        else match other.translations.lookup lang with
          | some lem => lem :: acc
          | none => acc) [] →
      ∃ other ∈ l, other.synset_id ∉ ex ∧
        sharesVocabularyWithTarget entry other lang = false ∧
        other.translations.lookup lang = some w := by
  intro l
  induction l with
  | nil => intro w hw; simp at hw
  | cons o l' ih =>
    intro w hw
    rw [List.foldr_cons] at hw
    by_cases hex : o.synset_id ∈ ex
    · rw [if_pos hex] at hw
      obtain ⟨other, hmem, hp⟩ := ih w hw
      exact ⟨other, List.mem_cons_of_mem _ hmem, hp⟩
    · rw [if_neg hex] at hw
      by_cases hsh : sharesVocabularyWithTarget entry o lang
      · rw [if_pos hsh] at hw
        obtain ⟨other, hmem, hp⟩ := ih w hw
        exact ⟨other, List.mem_cons_of_mem _ hmem, hp⟩
      · rw [if_neg hsh] at hw
        cases htr : o.translations.lookup lang with
        | none =>
          rw [htr] at hw
          obtain ⟨other, hmem, hp⟩ := ih w hw
          exact ⟨other, List.mem_cons_of_mem _ hmem, hp⟩
        | some lem =>
          rw [htr] at hw
          rcases List.mem_cons.mp hw with rfl | hw'
          · exact ⟨o, List.mem_cons_self _ _, hex,
              Bool.not_eq_true _ ▸ (by simpa using hsh), htr⟩
          · obtain ⟨other, hmem, hp⟩ := ih w hw'
            exact ⟨other, List.mem_cons_of_mem _ hmem, hp⟩

/-- C4 (amended): the tier-1 cross-domain pool is drawn only from
candidate words, each of which comes from a non-excluded entry whose
label in the target language shares no vocabulary *with the prompt
entry's label* — and `_shares_vocabulary_with_target` is exactly
"substring in either direction, or an equal 3-letter prefix when both
lowercased labels are longer than 3 characters", computed against the
prompt entry's label, not the correct answer's.  (The claim as frozen
says the comparison is against the correct answer label; the
counterexample shows a pool word sharing a 3-letter prefix with the
correct label.) -/
theorem C4_cross_domain_amended (gen : Gen) (r : Rng) (hs : RngSound r)
    (entry : Entry) (lang : String) (sampleSize : Nat) :
    (∀ w ∈ gen.getCrossDomainWords r entry lang sampleSize,
        w ∈ gen.crossDomainCandidateWords entry lang) ∧
    (∀ w ∈ gen.crossDomainCandidateWords entry lang,
        ∃ other ∈ gen.data,
          other.synset_id ∉ gen.buildSemanticExclusionSet entry ∧
          sharesVocabularyWithTarget entry other lang = false ∧
          other.translations.lookup lang = some w) ∧
    (∀ (cand : Entry) (tl cl : String),
        entry.translations.lookup lang = some tl →
        cand.translations.lookup lang = some cl →
        (sharesVocabularyWithTarget entry cand lang = true ↔
          ((pyLower tl).data <:+: (pyLower cl).data ∨
            (pyLower cl).data <:+: (pyLower tl).data ∨
            (3 < (pyLower tl).length ∧ 3 < (pyLower cl).length ∧
              ((pyLower tl).data.take 3 = (pyLower cl).data.take 3))))) := by
  refine ⟨?_, ?_, ?_⟩
  · intro w hw
    rw [Gen.getCrossDomainWords] at hw
    split at hw
    · rename_i hlong
      rw [List.mem_toFinset] at hw
      exact hs.sample_subset _ _ (le_of_lt hlong) w hw
    · rwa [List.mem_toFinset] at hw
  · intro w hw
    rw [Gen.crossDomainCandidateWords] at hw
    exact crossDomainFold_mem entry lang _ gen.data w hw
  · intro cand tl cl htl hcl
    rw [sharesVocabularyWithTarget, htl, hcl]
    simp only [pyStrIn, Bool.or_eq_true, Bool.and_eq_true, decide_eq_true_eq]
    tauto

/-- Counterexample data for C4: the prompt entry `dog` has the hypernym
`animal` (the correct label); the unrelated entry `anise` shares the
3-letter prefix `ani` with `animal` but no vocabulary with `dog`. -/
def relH : RelEntry := ⟨"p2", [("en", "animal")]⟩

def entryP : Entry := ⟨"p1", [("en", "dog")], [relH], [], [], []⟩

def entryX : Entry := ⟨"p3", [("en", "anise")], [], [], [], []⟩

def genC4 : Gen := ⟨[entryP, entryX], 3, 4⟩

/-- C4 (counterexample to the claim as frozen): `anise` stays in the
tier-1 candidate pool for prompt `dog` although it shares the 3-letter
prefix `ani` with the correct label `animal` (both longer than 3
characters): the code's vocabulary filter compares with the prompt label
`dog`, not with the correct label. -/
theorem C4_cross_domain_counterexample :
    relH.translations.lookup "en" = some "animal" ∧
    "anise" ∈ genC4.crossDomainCandidateWords entryP "en" ∧
    "anise" ∈ genC4.getCrossDomainWords canonicalRng entryP "en" 50 ∧
    (pyLower "anise").data.take 3 = (pyLower "animal").data.take 3 ∧
    3 < "anise".length ∧ 3 < "animal".length := by
  refine ⟨rfl, ?_, ?_, ?_, ?_, ?_⟩ <;> decide

/-- Witness for `C4_cross_domain_amended` at the counterexample data. -/
theorem C4_cross_domain_witness :
    ("anise" ∈ genC4.crossDomainCandidateWords entryP "en" ∧
      ∃ other ∈ genC4.data,
        other.synset_id ∉ genC4.buildSemanticExclusionSet entryP ∧
        sharesVocabularyWithTarget entryP other "en" = false ∧
        other.translations.lookup "en" = some "anise") ∧
    (sharesVocabularyWithTarget entryP entryX "en" = true ↔
      ((pyLower "dog").data <:+: (pyLower "anise").data ∨
        (pyLower "anise").data <:+: (pyLower "dog").data ∨
        (3 < (pyLower "dog").length ∧ 3 < (pyLower "anise").length ∧
          ((pyLower "dog").data.take 3 = (pyLower "anise").data.take 3)))) :=
  ⟨⟨by decide,
    (C4_cross_domain_amended genC4 canonicalRng canonicalRng_sound entryP "en" 50).2.1
      "anise" (by decide)⟩,
   (C4_cross_domain_amended genC4 canonicalRng canonicalRng_sound entryP "en" 50).2.2
     entryX "dog" "anise" rfl rfl⟩

/-! ## C8: no prompt-word reuse within a language pair's batch -/

/-- Fields of a successfully created question: the prompt text is built
from the entry's prompt word (the same lookup the balanced loop uses as
`source_word`), and the metadata records the requested difficulty. -/
theorem createSingleQuestion_fields (gen : Gen) (r : Rng) (entry : Entry)
    (validRelated : List RelEntry)
    (fromCode toCode taskType relationField : String) (difficulty qid : Nat)
    (generationTime multilingualMode : String) (q : Question)
    (hq : gen.createSingleQuestion r entry validRelated fromCode toCode taskType
      relationField difficulty qid generationTime multilingualMode = some q) :
    q.prompt = (createPromptText taskType fromCode toCode
        ((entry.translations.lookup fromCode).getD "")).1 ∧
      q.metadata.difficulty = difficulty := by
  rw [Gen.createSingleQuestion] at hq
  cases hpw : entry.translations.lookup fromCode with
  | none => simp only [hpw] at hq; exact Option.noConfusion hq
  | some promptWord =>
  simp only [hpw] at hq
  cases hre : r.chooseRel validRelated with
  | none => simp only [hre] at hq; exact Option.noConfusion hq
  | some relationEntry =>
  simp only [hre] at hq
  cases hcl : relationEntry.translations.lookup toCode with
  | none => simp only [hcl] at hq; exact Option.noConfusion hq
  | some correctLemma =>
  simp only [hcl] at hq
  by_cases hguard :
      ((gen.lemmaLookup toCode).erase correctLemma).card < gen.minDistractors
  · rw [if_pos hguard] at hq; exact Option.noConfusion hq
  · rw [if_neg hguard] at hq
    exact ⟨by rw [← Option.some.inj hq]; exact rfl,
      by rw [← Option.some.inj hq]⟩

/-- The prompt template is injective in the prompt word (for a fixed task
type and language pair). -/
theorem createPromptText_inj (taskType fromCode toCode w1 w2 : String)
    (h : (createPromptText taskType fromCode toCode w1).1 =
      (createPromptText taskType fromCode toCode w2).1) : w1 = w2 := by
  have data_append : ∀ a b : String, (a ++ b).data = a.data ++ b.data :=
    fun _ _ => rfl
  have hd := congrArg String.data h
  simp only [createPromptText] at hd
  simp only [data_append, List.append_assoc] at hd
  have h1 := List.append_cancel_left hd
  have h2 := List.append_cancel_left h1
  have h3 := List.append_cancel_left h2
  have h4 := List.append_cancel_left h3
  have h5 := List.append_cancel_left h4
  have h6 := List.append_cancel_right h5
  exact congrArg String.mk h6

/-- The per-tier generation loop: its questions arise from a
duplicate-free list of prompt words, none of which was used before, and
the used-word set grows by exactly those words. -/
theorem genLoop_prompts (gen : Gen) (r : Rng)
    (fromCode toCode taskType relationField : String) (difficulty : Nat)
    (generationTime multilingualMode : String) :
    ∀ (entries : List (Entry × List RelEntry)) (needed : Nat)
      (used : Finset String) (qid : Nat),
      ∃ ws : List String, ws.Nodup ∧ (∀ w ∈ ws, w ∉ used) ∧
        (gen.genLoop r fromCode toCode taskType relationField difficulty
          generationTime multilingualMode entries needed used qid).2.1 =
            used ∪ ws.toFinset ∧
        (gen.genLoop r fromCode toCode taskType relationField difficulty
          generationTime multilingualMode entries needed used qid).1.map
            (fun q => q.prompt) =
          ws.map (fun w => (createPromptText taskType fromCode toCode w).1) := by
  intro entries
  induction entries with
  | nil =>
    intro needed used qid
    exact ⟨[], by simp, by simp, by simp [Gen.genLoop], by simp [Gen.genLoop]⟩
  | cons e rest ih =>
    obtain ⟨entry, validRel⟩ := e
    intro needed used qid
    match needed with
    | 0 =>
      exact ⟨[], by simp, by simp, by simp [Gen.genLoop], by simp [Gen.genLoop]⟩
    | needed' + 1 =>
      simp only [Gen.genLoop]
      by_cases hw : (entry.translations.lookup fromCode).getD "" ∈ used
      · rw [if_pos hw]
        exact ih (needed' + 1) used qid
      · rw [if_neg hw]
        cases hcq : gen.createSingleQuestion r entry validRel fromCode toCode
            taskType relationField difficulty qid generationTime
            multilingualMode with
        | none => exact ih (needed' + 1) used qid
        | some q =>
          obtain ⟨ws', hnd, hfresh, hused, hmap⟩ :=
            ih needed' (insert ((entry.translations.lookup fromCode).getD "") used) (qid + 1)
          refine ⟨(entry.translations.lookup fromCode).getD "" :: ws', ?_, ?_, ?_, ?_⟩
          · rw [List.nodup_cons]
            exact ⟨fun hmem => (hfresh _ hmem) (Finset.mem_insert_self _ _), hnd⟩
          · intro x hx
            rcases List.mem_cons.mp hx with rfl | hx'
            · exact hw
            · exact fun hxu => hfresh x hx' (Finset.mem_insert_of_mem hxu)
          · show (gen.genLoop r fromCode toCode taskType relationField difficulty
                generationTime multilingualMode rest needed'
                (insert ((entry.translations.lookup fromCode).getD "") used)
                (qid + 1)).2.1 = _
            rw [hused, List.toFinset_cons, Finset.insert_union, Finset.union_insert]
          · show _ :: (gen.genLoop r fromCode toCode taskType relationField
                difficulty generationTime multilingualMode rest needed'
                (insert ((entry.translations.lookup fromCode).getD "") used)
                (qid + 1)).1.map (fun q => q.prompt) = _
            rw [hmap, List.map_cons]
            congr 1
            exact (createSingleQuestion_fields gen r entry validRel fromCode
              toCode taskType relationField difficulty qid generationTime
              multilingualMode q hcq).1

/-- The five-tier fold inherits the same shape: across tiers, prompt words
never repeat because the used-word set is threaded through. -/
theorem genForDifficulties_prompts (gen : Gen) (r : Rng)
    (fromCode toCode taskType relationField : String)
    (generationTime multilingualMode : String)
    (entries : List (Entry × List RelEntry)) (qpd rem : Nat) :
    ∀ (ds : List Nat) (used : Finset String) (qid : Nat),
      ∃ ws : List String, ws.Nodup ∧ (∀ w ∈ ws, w ∉ used) ∧
        (gen.genForDifficulties r fromCode toCode taskType relationField
          generationTime multilingualMode entries qpd rem ds used qid).2.1 =
            used ∪ ws.toFinset ∧
        (gen.genForDifficulties r fromCode toCode taskType relationField
          generationTime multilingualMode entries qpd rem ds used qid).1.map
            (fun q => q.prompt) =
          ws.map (fun w => (createPromptText taskType fromCode toCode w).1) := by
  intro ds
  induction ds with
  | nil =>
    intro used qid
    exact ⟨[], by simp, by simp, by simp [Gen.genForDifficulties],
      by simp [Gen.genForDifficulties]⟩
  | cons d ds' ih =>
    intro used qid
    simp only [Gen.genForDifficulties]
    obtain ⟨ws1, hnd1, hf1, hu1, hm1⟩ := genLoop_prompts gen r fromCode toCode
      taskType relationField d generationTime multilingualMode entries
      (qpd + if d ≤ rem then 1 else 0) used qid
    obtain ⟨ws2, hnd2, hf2, hu2, hm2⟩ := ih
      (gen.genLoop r fromCode toCode taskType relationField d generationTime
        multilingualMode entries (qpd + if d ≤ rem then 1 else 0) used qid).2.1
      (gen.genLoop r fromCode toCode taskType relationField d generationTime
        multilingualMode entries (qpd + if d ≤ rem then 1 else 0) used qid).2.2
    refine ⟨ws1 ++ ws2, ?_, ?_, ?_, ?_⟩
    · rw [List.nodup_append]
      refine ⟨hnd1, hnd2, ?_⟩
      intro x hx1 hx2
      have hxin : x ∈ used ∪ ws1.toFinset :=
        Finset.mem_union_right _ (List.mem_toFinset.mpr hx1)
      rw [← hu1] at hxin
      exact hf2 x hx2 hxin
    · intro x hx
      rcases List.mem_append.mp hx with hx1 | hx2
      · exact hf1 x hx1
      · intro hxu
        have hxin : x ∈ used ∪ ws1.toFinset := Finset.mem_union_left _ hxu
        rw [← hu1] at hxin
        exact hf2 x hx2 hxin
    · rw [hu2, hu1, List.toFinset_append, Finset.union_assoc]
    · rw [List.map_append, hm1, hm2, List.map_append]

/-- C8: within one language pair's batch, no two generated question
records share the same prompt word — the used-word set threaded through
all five tiers skips any entry whose prompt word already produced a
record, so the prompt texts (which embed the word in a fixed template)
are pairwise distinct. -/
theorem C8_no_prompt_reuse (gen : Gen) (r : Rng) (langPair : String × String)
    (entries : List (Entry × List RelEntry)) (taskType relationField : String)
    (target : Nat) (generationTime multilingualMode : String) (qid : Nat) :
    ((gen.questionsForPair r langPair entries taskType relationField target
        generationTime multilingualMode qid).1.map (fun q => q.prompt)).Nodup := by
  obtain ⟨ws, hnd, -, -, hmap⟩ := genForDifficulties_prompts gen r langPair.1
    langPair.2 taskType relationField generationTime multilingualMode
    (r.shuffleEntries entries) (target / 5) (target % 5) [1, 2, 3, 4, 5] ∅ qid
  show ((gen.genForDifficulties r langPair.1 langPair.2 taskType relationField
      generationTime multilingualMode (r.shuffleEntries entries) (target / 5)
      (target % 5) [1, 2, 3, 4, 5] ∅ qid).1.map (fun q => q.prompt)).Nodup
  rw [hmap]
  exact hnd.map (fun {w1 w2} h =>
    createPromptText_inj taskType langPair.1 langPair.2 w1 w2 h)

/-! ## C6: balanced per-tier counts -/

/-- The `source_word` of a collected entry, as the balanced loop reads it. -/
def sourceWordOf (fromCode : String) (e : Entry × List RelEntry) : String :=
  (e.1.translations.lookup fromCode).getD ""

/-- The per-tier target sum `sum over ds of (target // 5 + extra)`. -/
def targetsSum (qpd rem : Nat) (ds : List Nat) : Nat :=
  (ds.map (fun d => qpd + if d ≤ rem then 1 else 0)).sum

/-- Whether `_create_single_question` succeeds does not depend on the
question-id counter (it only feeds the id string). -/
theorem createSingleQuestion_isSome_qid (gen : Gen) (r : Rng) (entry : Entry)
    (validRelated : List RelEntry)
    (fromCode toCode taskType relationField : String) (difficulty : Nat)
    (qid qid' : Nat) (generationTime multilingualMode : String) :
    (gen.createSingleQuestion r entry validRelated fromCode toCode taskType
        relationField difficulty qid generationTime multilingualMode).isSome =
      (gen.createSingleQuestion r entry validRelated fromCode toCode taskType
        relationField difficulty qid' generationTime multilingualMode).isSome := by
  cases hpw : entry.translations.lookup fromCode with
  | none =>
    rw [Gen.createSingleQuestion, Gen.createSingleQuestion]
    simp only [hpw]
  | some promptWord =>
    cases hre : r.chooseRel validRelated with
    | none =>
      rw [Gen.createSingleQuestion, Gen.createSingleQuestion]
      simp only [hpw, hre]
    | some relationEntry =>
      cases hcl : relationEntry.translations.lookup toCode with
      | none =>
        rw [Gen.createSingleQuestion, Gen.createSingleQuestion]
        simp only [hpw, hre, hcl]
      | some correctLemma =>
        rw [Gen.createSingleQuestion, Gen.createSingleQuestion]
        simp only [hpw, hre, hcl]
        by_cases hguard : ((gen.lemmaLookup toCode).erase correctLemma).card <
            gen.minDistractors
        · rw [if_pos hguard, if_pos hguard]
        · rw [if_neg hguard, if_neg hguard]; rfl

/-- Every question emitted by the tier loop carries that tier's
difficulty in its metadata. -/
theorem genLoop_difficulty (gen : Gen) (r : Rng)
    (fromCode toCode taskType relationField : String) (difficulty : Nat)
    (generationTime multilingualMode : String) :
    ∀ (entries : List (Entry × List RelEntry)) (needed : Nat)
      (used : Finset String) (qid : Nat),
      ∀ q ∈ (gen.genLoop r fromCode toCode taskType relationField difficulty
        generationTime multilingualMode entries needed used qid).1,
        q.metadata.difficulty = difficulty := by
  intro entries
  induction entries with
  | nil => intro needed used qid q hq; simp [Gen.genLoop] at hq
  | cons e rest ih =>
    obtain ⟨entry, validRel⟩ := e
    intro needed used qid q hq
    match needed with
    | 0 => simp [Gen.genLoop] at hq
    | needed' + 1 =>
      simp only [Gen.genLoop] at hq
      by_cases hw : (entry.translations.lookup fromCode).getD "" ∈ used
      · rw [if_pos hw] at hq
        exact ih (needed' + 1) used qid q hq
      · rw [if_neg hw] at hq
        cases hcq : gen.createSingleQuestion r entry validRel fromCode toCode
            taskType relationField difficulty qid generationTime
            multilingualMode with
        | none =>
          rw [hcq] at hq
          exact ih (needed' + 1) used qid q hq
        | some q0 =>
          rw [hcq] at hq
          rcases List.mem_cons.mp hq with rfl | hq'
          · exact (createSingleQuestion_fields gen r entry validRel fromCode
              toCode taskType relationField difficulty qid generationTime
              multilingualMode q hcq).2
          · exact ih needed' _ (qid + 1) q hq'

/-- The tier loop generates exactly `min needed fresh` questions when every
creation attempt succeeds and prompt words are pairwise distinct, and it
consumes exactly that many fresh entries. -/
theorem genLoop_count (gen : Gen) (r : Rng)
    (fromCode toCode taskType relationField : String) (difficulty : Nat)
    (generationTime multilingualMode : String) :
    ∀ (entries : List (Entry × List RelEntry)) (needed : Nat)
      (used : Finset String) (qid : Nat),
      (entries.map (sourceWordOf fromCode)).Nodup →
      (∀ e ∈ entries, ∀ qid' : Nat,
        (gen.createSingleQuestion r e.1 e.2 fromCode toCode taskType
          relationField difficulty qid' generationTime multilingualMode).isSome) →
      (gen.genLoop r fromCode toCode taskType relationField difficulty
          generationTime multilingualMode entries needed used qid).1.length =
        min needed
          ((entries.filter (fun e => sourceWordOf fromCode e ∉ used)).length) ∧
      (entries.filter (fun e => sourceWordOf fromCode e ∉
          (gen.genLoop r fromCode toCode taskType relationField difficulty
            generationTime multilingualMode entries needed used qid).2.1)).length =
        (entries.filter (fun e => sourceWordOf fromCode e ∉ used)).length -
          (gen.genLoop r fromCode toCode taskType relationField difficulty
            generationTime multilingualMode entries needed used qid).1.length := by
  intro entries
  induction entries with
  | nil =>
    intro needed used qid _ _
    constructor
    · simp [Gen.genLoop]
    · simp [Gen.genLoop]
  | cons e rest ih =>
    obtain ⟨entry, validRel⟩ := e
    intro needed used qid hnodup hsucc
    have hnodup' : (rest.map (sourceWordOf fromCode)).Nodup :=
      (List.nodup_cons.mp hnodup).2
    have hhead : ∀ e' ∈ rest,
        sourceWordOf fromCode e' ≠ sourceWordOf fromCode (entry, validRel) := by
      intro e' he' heq
      exact (List.nodup_cons.mp hnodup).1 (heq ▸ List.mem_map_of_mem _ he')
    have hsucc' : ∀ e ∈ rest, ∀ qid' : Nat,
        (gen.createSingleQuestion r e.1 e.2 fromCode toCode taskType
          relationField difficulty qid' generationTime multilingualMode).isSome :=
      fun e he => hsucc e (List.mem_cons_of_mem _ he)
    match needed with
    | 0 =>
      constructor
      · simp [Gen.genLoop]
      · simp [Gen.genLoop]
    | needed' + 1 =>
      simp only [Gen.genLoop]
      by_cases hw : (entry.translations.lookup fromCode).getD "" ∈ used
      · rw [if_pos hw]
        have hfe : (((entry, validRel) :: rest).filter
            (fun e => sourceWordOf fromCode e ∉ used)) =
            rest.filter (fun e => sourceWordOf fromCode e ∉ used) := by
          rw [List.filter_cons]
          simp only [sourceWordOf]
          simp [hw]
        obtain ⟨ha, hb⟩ := ih (needed' + 1) used qid hnodup' hsucc'
        constructor
        · rw [hfe]; exact ha
        · have hwres : (entry.translations.lookup fromCode).getD "" ∈
              (gen.genLoop r fromCode toCode taskType relationField difficulty
                generationTime multilingualMode rest (needed' + 1) used qid).2.1 := by
            obtain ⟨ws, -, -, hu, -⟩ := genLoop_prompts gen r fromCode toCode
              taskType relationField difficulty generationTime multilingualMode
              rest (needed' + 1) used qid
            rw [hu]
            exact Finset.mem_union_left _ hw
          have hfe2 : (((entry, validRel) :: rest).filter
              (fun e => sourceWordOf fromCode e ∉
                (gen.genLoop r fromCode toCode taskType relationField difficulty
                  generationTime multilingualMode rest (needed' + 1) used qid).2.1)) =
              rest.filter (fun e => sourceWordOf fromCode e ∉
                (gen.genLoop r fromCode toCode taskType relationField difficulty
                  generationTime multilingualMode rest (needed' + 1) used qid).2.1) := by
            rw [List.filter_cons]
            simp only [sourceWordOf]
            simp [hwres]
          rw [hfe2, hfe]
          exact hb
      · rw [if_neg hw]
        cases hcq : gen.createSingleQuestion r entry validRel fromCode toCode
            taskType relationField difficulty qid generationTime
            multilingualMode with
        | none =>
          exfalso
          have := hsucc (entry, validRel) (List.mem_cons_self _ _) qid
          rw [hcq] at this
          exact Bool.noConfusion this
        | some q =>
          have hfilter_insert : rest.filter (fun e => sourceWordOf fromCode e ∉
              insert ((entry.translations.lookup fromCode).getD "") used) =
              rest.filter (fun e => sourceWordOf fromCode e ∉ used) := by
            refine List.filter_congr ?_
            intro e' he'
            have hne := hhead e' he'
            simp only [sourceWordOf] at hne ⊢
            simp [Finset.mem_insert, hne]
          have hfe : (((entry, validRel) :: rest).filter
              (fun e => sourceWordOf fromCode e ∉ used)).length =
              (rest.filter (fun e => sourceWordOf fromCode e ∉ used)).length + 1 := by
            rw [List.filter_cons]
            simp only [sourceWordOf]
            simp [hw]
          obtain ⟨ha, hb⟩ := ih needed'
            (insert ((entry.translations.lookup fromCode).getD "") used)
            (qid + 1) hnodup' hsucc'
          rw [hfilter_insert] at ha hb
          constructor
          · show ((q :: (gen.genLoop r fromCode toCode taskType relationField
                difficulty generationTime multilingualMode rest needed'
                (insert ((entry.translations.lookup fromCode).getD "") used)
                (qid + 1)).1).length) = _
            rw [List.length_cons, ha, hfe, min_add_add_right]
          · have hwres : (entry.translations.lookup fromCode).getD "" ∈
                (gen.genLoop r fromCode toCode taskType relationField difficulty
                  generationTime multilingualMode rest needed'
                  (insert ((entry.translations.lookup fromCode).getD "") used)
                  (qid + 1)).2.1 := by
              obtain ⟨ws, -, -, hu, -⟩ := genLoop_prompts gen r fromCode toCode
                taskType relationField difficulty generationTime multilingualMode
                rest needed'
                (insert ((entry.translations.lookup fromCode).getD "") used)
                (qid + 1)
              rw [hu]
              exact Finset.mem_union_left _ (Finset.mem_insert_self _ _)
            have hfe2 : (((entry, validRel) :: rest).filter
                (fun e => sourceWordOf fromCode e ∉
                  (gen.genLoop r fromCode toCode taskType relationField
                    difficulty generationTime multilingualMode rest needed'
                    (insert ((entry.translations.lookup fromCode).getD "") used)
                    (qid + 1)).2.1)) =
                rest.filter (fun e => sourceWordOf fromCode e ∉
                  (gen.genLoop r fromCode toCode taskType relationField
                    difficulty generationTime multilingualMode rest needed'
                    (insert ((entry.translations.lookup fromCode).getD "") used)
                    (qid + 1)).2.1) := by
              rw [List.filter_cons]
              simp only [sourceWordOf]
              simp [hwres]
            rw [hfe2, hb, hfe]
            show _ = _ + 1 - (q :: (gen.genLoop r fromCode toCode taskType
              relationField difficulty generationTime multilingualMode rest
              needed' (insert ((entry.translations.lookup fromCode).getD "") used)
              (qid + 1)).1).length
            rw [List.length_cons, ha]
            omega

/-- The five-tier fold: with pairwise-distinct prompt words, all creation
attempts succeeding, and at least `targetsSum` fresh entries, every tier
reaches its exact target, and the tiers' questions are tagged with their
difficulties. -/
theorem genForDifficulties_count (gen : Gen) (r : Rng)
    (fromCode toCode taskType relationField : String)
    (generationTime multilingualMode : String)
    (entries : List (Entry × List RelEntry)) (qpd rem : Nat)
    (hnodup : (entries.map (sourceWordOf fromCode)).Nodup) :
    ∀ ds : List Nat, ds.Nodup →
      (∀ e ∈ entries, ∀ d ∈ ds, ∀ qid' : Nat,
        (gen.createSingleQuestion r e.1 e.2 fromCode toCode taskType
          relationField d qid' generationTime multilingualMode).isSome) →
      ∀ (used : Finset String) (qid : Nat),
        targetsSum qpd rem ds ≤
          (entries.filter (fun e => sourceWordOf fromCode e ∉ used)).length →
        (gen.genForDifficulties r fromCode toCode taskType relationField
            generationTime multilingualMode entries qpd rem ds used qid).1.length =
          targetsSum qpd rem ds ∧
        (entries.filter (fun e => sourceWordOf fromCode e ∉
            (gen.genForDifficulties r fromCode toCode taskType relationField
              generationTime multilingualMode entries qpd rem ds used qid).2.1)).length =
          (entries.filter (fun e => sourceWordOf fromCode e ∉ used)).length -
            targetsSum qpd rem ds ∧
        ∀ d' : Nat,
          ((gen.genForDifficulties r fromCode toCode taskType relationField
              generationTime multilingualMode entries qpd rem ds used qid).1.filter
            (fun q => q.metadata.difficulty = d')).length =
            if d' ∈ ds then qpd + (if d' ≤ rem then 1 else 0) else 0 := by
  intro ds
  induction ds with
  | nil =>
    intro _ _ used qid _
    refine ⟨by simp [Gen.genForDifficulties, targetsSum], ?_, ?_⟩
    · simp [Gen.genForDifficulties, targetsSum]
    · intro d'; simp [Gen.genForDifficulties]
  | cons d ds' ihds =>
    intro hnd hsucc used qid hF
    have hdd : d ∉ ds' := (List.nodup_cons.mp hnd).1
    have hnd' : ds'.Nodup := (List.nodup_cons.mp hnd).2
    have hsum : targetsSum qpd rem (d :: ds') =
        (qpd + if d ≤ rem then 1 else 0) + targetsSum qpd rem ds' := by
      simp [targetsSum]
    rw [hsum] at hF
    obtain ⟨ha1, hb1⟩ := genLoop_count gen r fromCode toCode taskType
      relationField d generationTime multilingualMode entries
      (qpd + if d ≤ rem then 1 else 0) used qid hnodup
      (fun e he qid' => hsucc e he d (List.mem_cons_self _ _) qid')
    have htle : (qpd + if d ≤ rem then 1 else 0) ≤
        (entries.filter (fun e => sourceWordOf fromCode e ∉ used)).length := by
      omega
    rw [min_eq_left htle] at ha1
    obtain ⟨ha2, hb2, hc2⟩ := ihds hnd'
      (fun e he d' hd' qid' => hsucc e he d' (List.mem_cons_of_mem _ hd') qid')
      (gen.genLoop r fromCode toCode taskType relationField d generationTime
        multilingualMode entries (qpd + if d ≤ rem then 1 else 0) used qid).2.1
      (gen.genLoop r fromCode toCode taskType relationField d generationTime
        multilingualMode entries (qpd + if d ≤ rem then 1 else 0) used qid).2.2
      (by rw [hb1, ha1]; omega)
    simp only [Gen.genForDifficulties]
    refine ⟨?_, ?_, ?_⟩
    · rw [List.length_append, ha1, ha2, hsum]
    · rw [hb2, hb1, ha1, hsum]
      omega
    · intro d'
      rw [List.filter_append, List.length_append]
      by_cases hd' : d' = d
      · subst hd'
        have hall : (gen.genLoop r fromCode toCode taskType relationField d'
            generationTime multilingualMode entries
            (qpd + if d' ≤ rem then 1 else 0) used qid).1.filter
              (fun q => q.metadata.difficulty = d') =
            (gen.genLoop r fromCode toCode taskType relationField d'
              generationTime multilingualMode entries
              (qpd + if d' ≤ rem then 1 else 0) used qid).1 := by
          refine List.filter_eq_self.mpr ?_
          intro q hq
          simp [genLoop_difficulty gen r fromCode toCode taskType relationField
            d' generationTime multilingualMode entries _ used qid q hq]
        rw [hall, ha1, hc2 d', if_neg hdd, if_pos (List.mem_cons_self _ _)]
        omega
      · have hnone : (gen.genLoop r fromCode toCode taskType relationField d
            generationTime multilingualMode entries
            (qpd + if d ≤ rem then 1 else 0) used qid).1.filter
              (fun q => q.metadata.difficulty = d') = [] := by
          refine List.filter_eq_nil.mpr ?_
          intro q hq
          have hdq := genLoop_difficulty gen r fromCode toCode taskType
            relationField d generationTime multilingualMode entries _ used qid q hq
          simp [hdq, Ne.symm hd']
        rw [hnone, hc2 d']
        have hmem : (d' ∈ d :: ds') ↔ (d' ∈ ds') := by
          simp [List.mem_cons, hd']
        by_cases hds : d' ∈ ds'
        · rw [if_pos hds, if_pos (hmem.mpr hds)]; simp
        · rw [if_neg hds, if_neg (fun hmm => hds (hmem.mp hmm))]; simp

/-- The five per-tier targets sum to the requested total. -/
theorem targetsSum_five (T : Nat) :
    targetsSum (T / 5) (T % 5) [1, 2, 3, 4, 5] = T := by
  have h5 : T % 5 < 5 := Nat.mod_lt T (by norm_num)
  have hdm : 5 * (T / 5) + T % 5 = T := Nat.div_add_mod T 5
  simp only [targetsSum, List.map_cons, List.map_nil, List.sum_cons,
    List.sum_nil]
  split_ifs <;> omega

/-- C6: for one language pair with pairwise-distinct prompt words, at
least `T` eligible entries, and every creation attempt succeeding, the
batch produces at most `T` records (in fact exactly `T`), and each of the
five difficulty tiers contributes `T / 5` records plus one extra for the
tiers numbered at most `T % 5`. -/
theorem C6_balanced_counts (gen : Gen) (r : Rng) (hs : RngSound r)
    (langPair : String × String) (entries : List (Entry × List RelEntry))
    (taskType relationField : String) (T : Nat)
    (generationTime multilingualMode : String) (qid : Nat)
    (hnodup : (entries.map (sourceWordOf langPair.1)).Nodup)
    (hlen : T ≤ entries.length)
    (hsucc : ∀ e ∈ entries, ∀ d ∈ [1, 2, 3, 4, 5],
      (gen.createSingleQuestion r e.1 e.2 langPair.1 langPair.2 taskType
        relationField d 0 generationTime multilingualMode).isSome) :
    (gen.questionsForPair r langPair entries taskType relationField T
        generationTime multilingualMode qid).1.length ≤ T ∧
    ∀ d ∈ [1, 2, 3, 4, 5],
      ((gen.questionsForPair r langPair entries taskType relationField T
          generationTime multilingualMode qid).1.filter
        (fun q => q.metadata.difficulty = d)).length =
        T / 5 + if d ≤ T % 5 then 1 else 0 := by
  have hperm := hs.shuffleEntries_perm entries
  have hnodup_sh : ((r.shuffleEntries entries).map
      (sourceWordOf langPair.1)).Nodup :=
    ((hperm.map (sourceWordOf langPair.1)).nodup_iff).mpr hnodup
  have hsucc_sh : ∀ e ∈ r.shuffleEntries entries, ∀ d ∈ [1, 2, 3, 4, 5],
      ∀ qid' : Nat,
      (gen.createSingleQuestion r e.1 e.2 langPair.1 langPair.2 taskType
        relationField d qid' generationTime multilingualMode).isSome := by
    intro e he d hd qid'
    rw [createSingleQuestion_isSome_qid gen r e.1 e.2 langPair.1 langPair.2
      taskType relationField d qid' 0 generationTime multilingualMode]
    exact hsucc e (hperm.mem_iff.mp he) d hd
  have hfull : (r.shuffleEntries entries).filter
      (fun e => sourceWordOf langPair.1 e ∉ (∅ : Finset String)) =
      r.shuffleEntries entries := by
    refine List.filter_eq_self.mpr ?_
    intro e _
    simp
  have hF : targetsSum (T / 5) (T % 5) [1, 2, 3, 4, 5] ≤
      ((r.shuffleEntries entries).filter
        (fun e => sourceWordOf langPair.1 e ∉ (∅ : Finset String))).length := by
    rw [targetsSum_five, hfull, hperm.length_eq]
    exact hlen
  obtain ⟨ha, hb, hc⟩ := genForDifficulties_count gen r langPair.1 langPair.2
    taskType relationField generationTime multilingualMode
    (r.shuffleEntries entries) (T / 5) (T % 5) hnodup_sh [1, 2, 3, 4, 5]
    (by decide) hsucc_sh ∅ qid hF
  constructor
  · show (gen.genForDifficulties r langPair.1 langPair.2 taskType relationField
      generationTime multilingualMode (r.shuffleEntries entries) (T / 5)
      (T % 5) [1, 2, 3, 4, 5] ∅ qid).1.length ≤ T
    rw [ha, targetsSum_five]
  · intro d hd
    show ((gen.genForDifficulties r langPair.1 langPair.2 taskType
      relationField generationTime multilingualMode (r.shuffleEntries entries)
      (T / 5) (T % 5) [1, 2, 3, 4, 5] ∅ qid).1.filter
        (fun q => q.metadata.difficulty = d)).length = _
    rw [hc d, if_pos hd]

def relB : RelEntry := ⟨"s8", [("en", "plant"), ("de", "Pflanze")]⟩

def entryB : Entry := ⟨"s7", [("en", "cat"), ("de", "Katze")], [relB], [], [], []⟩

def gen6 : Gen := ⟨[entryW, entryB, entryW2, entryW3, entryW4, entryW5], 3, 4⟩

def entries6 : List (Entry × List RelEntry) :=
  [(entryW, [relW]), (entryB, [relB])]

/-- Witness for C6: a concrete two-entry batch with `T = 2` satisfies the
hypotheses and yields at most 2 questions with exactly one of difficulty 1. -/
theorem C6_balanced_counts_witness :
    (gen6.questionsForPair canonicalRng ("en", "de") entries6 "hypernymy"
        "hypernyms" 2 "t0" "all" 0).1.length ≤ 2 ∧
    ((gen6.questionsForPair canonicalRng ("en", "de") entries6 "hypernymy"
        "hypernyms" 2 "t0" "all" 0).1.filter
      (fun q => q.metadata.difficulty = 1)).length =
      2 / 5 + if 1 ≤ 2 % 5 then 1 else 0 :=
  ⟨(C6_balanced_counts gen6 canonicalRng canonicalRng_sound ("en", "de")
      entries6 "hypernymy" "hypernyms" 2 "t0" "all" 0 (by decide) (by decide)
      (by decide)).1,
   (C6_balanced_counts gen6 canonicalRng canonicalRng_sound ("en", "de")
      entries6 "hypernymy" "hypernyms" 2 "t0" "all" 0 (by decide) (by decide)
      (by decide)).2 1 (by decide)⟩

end Spec2Proof
